import Mathlib

/-!
The JSON tokenizer of `token/token.go`.

A shallow embedding of the Go package `token` and theorems about it.

* A byte is a natural number (`0 .. 255` for a real buffer); a `[]byte` and a Go
  `string` are lists of bytes.
* A function that can stop with a run-time panic (an index out of range) returns an
  `Option`, `none` being the panic.
* The scan loop of `Tokenizer` is one `step` per iteration, iterated by `scanLoop`
  under a fuel bound; `Tokenizer` gives it `len(input) + 1` units, which is proved
  to be always enough (`scanLoop_fuel_enough`).
-/

namespace Tok

/-! ## Data model -/

/-- The constants of the Go type `Type` (lines 11-27). -/
inductive TokenType where
  | ILLEGAL
  | EOF
  | LeftBrace
  | RightBrace
  | LeftBracket
  | RightBracket
  | Comma
  | Colon
  | Quote
  | String
  | Number
  | Boolean
  | Null
  deriving DecidableEq, Repr

/-- The Go struct `Token` (lines 33-36); `Typ` is the field `Type`. -/
structure Token where
  Typ : TokenType
  Val : List Nat
  deriving DecidableEq, Repr

/-- The bytes of an ASCII string literal. -/
def bytesOf (s : String) : List Nat :=
  s.toList.map Char.toNat

/-- The Go slice expression `input[lo:hi]`. Every slice expression of the source is
guarded so that `lo ≤ hi ≤ len(input)`, hence none of them can panic. -/
def slice (input : List Nat) (lo hi : Nat) : List Nat :=
  (input.drop lo).take (hi - lo)

/-- The Go `unicode.IsSpace` on a byte converted to a rune: in Latin-1 the white
space is tab, line feed, vertical tab, form feed, carriage return, space, U+0085 and
U+00A0. -/
def unicodeIsSpace (c : Nat) : Bool :=
  c == 9 || c == 10 || c == 11 || c == 12 || c == 13 || c == 32 || c == 133 || c == 160

/-- The Go `unicode.IsDigit` on a byte converted to a rune: in Latin-1 the decimal
digits are `0` to `9`. -/
def unicodeIsDigit (c : Nat) : Bool :=
  decide (48 ≤ c) && decide (c ≤ 57)

/-- Lines 172-174. -/
def isDigit (c : Nat) : Bool :=
  decide (c ≥ 48) && decide (c ≤ 57)

/-- Lines 168-170. The last disjunct of the source, `string(c) == EOF.String()`,
compares a string holding one code point with the three-byte string `EOF` and is
never true. -/
def isTerminatingCharacter (c : Nat) : Bool :=
  c == 44 || c == 125 || c == 93 || false

/-! ## The nesting stack (lines 250-268) -/

/-- The Go struct `Stack`; the top of the stack is the last element. -/
structure Stack where
  TokenTypes : List TokenType
  deriving DecidableEq, Repr

/-- Line 254. -/
def NewStack : Stack :=
  ⟨[]⟩

/-- Lines 258-260. -/
def Stack.Push (s : Stack) (t : TokenType) : Stack :=
  ⟨s.TokenTypes ++ [t]⟩

/-- Lines 262-264: `s.TokenTypes[len(s.TokenTypes)-1]`, a panic on the empty stack. -/
def Stack.Peek (s : Stack) : Option TokenType :=
  s.TokenTypes.getLast?

/-- Lines 266-268: `s.TokenTypes[:len(s.TokenTypes)-1]`, a panic on the empty stack. -/
def Stack.Pop (s : Stack) : Option Stack :=
  if s.TokenTypes = [] then none else some ⟨s.TokenTypes.dropLast⟩

/-! ## The sequence validator (lines 270-299) -/

/-- The map `validSequences` of lines 271-284; `none` is a key that is absent. -/
def validSequences : TokenType → Option (List TokenType)
  | .ILLEGAL => some [.String, .Number, .Boolean, .Null, .LeftBrace, .LeftBracket, .Quote]
  | .LeftBrace => some [.String, .Number, .Boolean, .Null, .LeftBrace, .LeftBracket,
      .RightBrace, .RightBracket, .Quote]
  | .RightBrace => some [.Comma, .EOF]
  | .LeftBracket => some [.String, .Number, .Boolean, .Null, .LeftBrace, .LeftBracket,
      .RightBracket, .Quote]
  | .RightBracket => some [.Comma, .EOF]
  | .Comma => some [.String, .Number, .Boolean, .Null, .LeftBrace, .LeftBracket, .Quote]
  | .Colon => some [.String, .Number, .Boolean, .Null, .LeftBrace, .LeftBracket, .Quote]
  | .String => some [.Comma, .RightBrace, .RightBracket, .Colon]
  | .Number => some [.Comma, .RightBrace, .RightBracket]
  | .Boolean => some [.Comma, .RightBrace, .RightBracket]
  | .Null => some [.Comma, .RightBrace, .RightBracket]
  | .Quote => some [.Comma, .RightBrace, .RightBracket, .Colon]
  | .EOF => none

/-- Lines 292-299. -/
def ContainsInArrays : List TokenType → TokenType → Bool
  | [], _ => false
  | a :: rest, val => if a = val then true else ContainsInArrays rest val

/-- Lines 270-290. -/
def isValidSequences (prevToken currToken : TokenType) : Bool :=
  match validSequences prevToken with
  | some nextTokens => ContainsInArrays nextTokens currToken
  | none => false

/-! ## The keyword lookaheads and the classifier (lines 176-248) -/

/-- The local `trueLiteral` of `isBoolean`: the bytes of `true`. -/
def trueLiteral : List Nat := [116, 114, 117, 101]

/-- The local `falseLiteral` of `isBoolean`: the bytes of `false`. -/
def falseLiteral : List Nat := [102, 97, 108, 115, 101]

/-- The local `nullLiteral` of `isNull`: the bytes of `null`. -/
def nullLiteral : List Nat := [110, 117, 108, 108]

/-- The test `c == ',' || c == '}' || c == ']'` of lines 186, 196 and 211. -/
def isCloser (c : Nat) : Bool :=
  c == 44 || c == 125 || c == 93

/-- Lines 190-200 of `isBoolean`: the second `if` and the final `return false`.
The byte read at line 195 is the one at `index+len(trueLiteral)`, as in the source. -/
def isBooleanRest (input : List Nat) (index : Nat) : Option Bool :=
  if input.length - index ≥ falseLiteral.length then
    if slice input index (index + falseLiteral.length) ≠ falseLiteral then
      some false
    else
      match input[index + trueLiteral.length]? with
      | none => none
      | some afterTrueLiteral =>
        if isCloser afterTrueLiteral then some true else some false
  else
    some false

/-- Lines 176-201. `none` is the panic of the unchecked read
`input[index+len(trueLiteral)]` at line 185. -/
def isBoolean (input : List Nat) (index : Nat) : Option Bool :=
  if input.length - index ≥ trueLiteral.length then
    if slice input index (index + trueLiteral.length) ≠ trueLiteral then
      some false
    else
      match input[index + trueLiteral.length]? with
      | none => none
      | some afterTrueLiteral =>
        if isCloser afterTrueLiteral then some true else isBooleanRest input index
  else
    isBooleanRest input index

/-- Lines 203-216. `none` is the panic of the unchecked read
`input[index+len(nullLiteral)]` at line 210. -/
def isNull (input : List Nat) (index : Nat) : Option Bool :=
  if input.length - index ≥ nullLiteral.length then
    if slice input index (index + nullLiteral.length) ≠ nullLiteral then
      some false
    else
      match input[index + nullLiteral.length]? with
      | none => none
      | some afterTrueLiteral =>
        if isCloser afterTrueLiteral then some true else some false
  else
    some false

/-- Lines 218-248. `none` is a panic inside `isBoolean` or `isNull`. -/
def determineTokenType (char : Nat) (input : List Nat) (currIndex : Nat) :
    Option TokenType :=
  if char = 123 then some .LeftBrace
  else if char = 125 then some .RightBrace
  else if char = 91 then some .LeftBracket
  else if char = 93 then some .RightBracket
  else if char = 44 then some .Comma
  else if char = 58 then some .Colon
  else if char = 34 then some .Quote
  else if unicodeIsDigit char then some .Number
  else if char = 116 ∨ char = 102 then
    match isBoolean input currIndex with
    | none => none
    | some true => some .Boolean
    | some false => some .ILLEGAL
  else if char = 110 then
    match isNull input currIndex with
    | none => none
    | some true => some .Null
    | some false => some .ILLEGAL
  else some .ILLEGAL

/-! ## The scan loop (lines 38-166) -/

/-- The message of line 56. -/
def msgInvalidSequence : List Nat := bytesOf "invalid token sequence"

/-- The message of line 99. -/
def msgUnclosedString : List Nat := bytesOf "Unclosed string literal"

/-- The message of line 111. -/
def msgInvalidNumber : List Nat := bytesOf "Invalid number format"

/-- The message of line 135. -/
def msgInvalidBoolean : List Nat := bytesOf "Invalid boolean literal"

/-- The message of line 160. -/
def msgUnclosedToken : List Nat := bytesOf "Unclosed token"

/-- The local variables of `Tokenizer` that live across loop iterations. -/
structure State where
  curr : Nat
  tokens : List Token
  stack : Stack
  prevTokenType : TokenType
  deriving DecidableEq, Repr

/-- How a call of `Tokenizer` ends. -/
inductive Outcome where
  | returned (tokens : List Token)
  | panicked
  | outOfFuel
  deriving DecidableEq, Repr

/-- How one iteration of the scan loop ends: the loop goes round again in a new
state, or the call is over. -/
inductive Step where
  | next (s : State)
  | done (o : Outcome)
  deriving DecidableEq, Repr

/-- An inner scan loop `for curr < len(input) && p(input[curr]) { curr++ }`: the
first argument is `input[curr:]`, the result is the final `curr`. -/
def advanceWhile (p : Nat → Bool) : List Nat → Nat → Nat
  | [], curr => curr
  | c :: rest, curr => if p c then advanceWhile p rest (curr + 1) else curr

/-- Lines 159-165: the code after the scan loop. -/
def finish (s : State) : Outcome :=
  if s.stack.TokenTypes.length > 0 then
    .returned (s.tokens ++ [⟨.ILLEGAL, msgUnclosedToken⟩])
  else
    .returned (s.tokens ++ [⟨.EOF, []⟩])

/-- Lines 155-156: the end of the loop body, reached by falling out of the
`switch`. -/
def fallOut (s : State) (currTokenType : TokenType) (tokens : List Token)
    (stack : Stack) : Step :=
  .next ⟨s.curr + 1, tokens, stack, currTokenType⟩

/-- Lines 68-72 and 78-82: a closing token of type `closer`, `opener` being the type
compared with the top of the stack. -/
def closeCase (s : State) (closer opener : TokenType) (char : Nat) : Step :=
  match s.stack.Peek with
  | none => .done .panicked
  | some top =>
    if top = opener then
      match s.stack.Pop with
      | none => .done .panicked
      | some stack => fallOut s closer (s.tokens ++ [⟨closer, [char]⟩]) stack
    else
      fallOut s closer (s.tokens ++ [⟨closer, [char]⟩]) s.stack

/-- Lines 87-101: a string literal. -/
def quoteCase (input : List Nat) (s : State) (currTokenType : TokenType) : Step :=
  let start := s.curr + 1
  let curr := advanceWhile (fun c => c != 34) (input.drop start) start
  if curr < input.length then
    .next ⟨curr + 1, s.tokens ++ [⟨.String, slice input start curr⟩], s.stack, currTokenType⟩
  else
    .done (.returned (s.tokens ++ [⟨.ILLEGAL, msgUnclosedString⟩]))

/-- Lines 103-118: a number. -/
def numberCase (input : List Nat) (s : State) : Step :=
  let start := s.curr
  let curr := advanceWhile isDigit (input.drop start) start
  if curr ≠ input.length then
    match input[curr]? with
    | none => .done .panicked
    | some c =>
      if !isTerminatingCharacter c then
        .done (.returned (s.tokens ++ [⟨.ILLEGAL, msgInvalidNumber⟩]))
      else
        .next ⟨curr, s.tokens ++ [⟨.Number, slice input start curr⟩], s.stack, .Number⟩
  else
    .next ⟨curr, s.tokens ++ [⟨.Number, slice input start curr⟩], s.stack, .Number⟩

/-- Lines 119-137: the bytes `t` and `f`. -/
def booleanCase (input : List Nat) (s : State) : Step :=
  match isBoolean input s.curr with
  | none => .done .panicked
  | some true =>
    let length := if slice input s.curr (s.curr + 4) = bytesOf "true" then 4 else 5
    .next ⟨s.curr + length,
      s.tokens ++ [⟨.Boolean, slice input s.curr (s.curr + length)⟩], s.stack, .Boolean⟩
  | some false => .done (.returned (s.tokens ++ [⟨.ILLEGAL, msgInvalidBoolean⟩]))

/-- Lines 138-153: the byte `n`. -/
def nullCase (input : List Nat) (s : State) (currTokenType : TokenType) : Step :=
  match isNull input s.curr with
  | none => .done .panicked
  | some true =>
    if slice input s.curr (s.curr + 4) = bytesOf "null" then
      .next ⟨s.curr + 4, s.tokens ++ [⟨.Null, slice input s.curr (s.curr + 4)⟩], s.stack, .Null⟩
    else
      fallOut s currTokenType s.tokens s.stack
  | some false => .next ⟨s.curr + 1, s.tokens, s.stack, .Null⟩

/-- Lines 102-153: the `default` case of the `switch`. -/
def defaultCase (input : List Nat) (s : State) (currTokenType : TokenType)
    (char : Nat) : Step :=
  if unicodeIsDigit char then numberCase input s
  else if char = 116 ∨ char = 102 then booleanCase input s
  else if char = 110 then nullCase input s currTokenType
  else fallOut s currTokenType s.tokens s.stack

/-- Lines 62-156: the `switch` on the classified type and the end of the loop
body. -/
def switchCase (input : List Nat) (s : State) (currTokenType : TokenType)
    (char : Nat) : Step :=
  match currTokenType with
  | .LeftBrace =>
    fallOut s .LeftBrace (s.tokens ++ [⟨.LeftBrace, [char]⟩]) (s.stack.Push .LeftBrace)
  | .RightBrace => closeCase s .RightBrace .LeftBrace char
  | .LeftBracket =>
    fallOut s .LeftBracket (s.tokens ++ [⟨.LeftBracket, [char]⟩]) (s.stack.Push .LeftBracket)
  | .RightBracket => closeCase s .RightBracket .LeftBracket char
  | .Comma => fallOut s .Comma (s.tokens ++ [⟨.Comma, [char]⟩]) s.stack
  | .Colon => fallOut s .Colon (s.tokens ++ [⟨.Colon, [char]⟩]) s.stack
  | .Quote => quoteCase input s .Quote
  | _ => defaultCase input s currTokenType char

/-- Lines 43-158: one iteration of the scan loop, the loop test included. The read
`input[curr]` gives `none` exactly when `curr < len(input)` fails, which ends the
loop. -/
def step (input : List Nat) (s : State) : Step :=
  match input[s.curr]? with
  | none => .done (finish s)
  | some char =>
    match determineTokenType char input s.curr with
    | none => .done .panicked
    | some currTokenType =>
      if unicodeIsSpace char then
        .next ⟨s.curr + 1, s.tokens, s.stack, s.prevTokenType⟩
      else if !isValidSequences s.prevTokenType currTokenType then
        .done (.returned (s.tokens ++ [⟨.ILLEGAL, msgInvalidSequence⟩]))
      else
        switchCase input s currTokenType char

/-- The scan loop: `step` iterated, at most `fuel` times. -/
def scanLoop (input : List Nat) : Nat → State → Outcome
  | 0, _ => .outOfFuel
  | fuel + 1, s =>
    match step input s with
    | .next s' => scanLoop input fuel s'
    | .done o => o

/-- Lines 39-42: the state in which the scan loop is entered. -/
def initialState : State :=
  ⟨0, [], NewStack, .ILLEGAL⟩

/-- Lines 38-166. -/
def Tokenizer (input : List Nat) : Outcome :=
  scanLoop input (input.length + 1) initialState

/-! ## Notions used to state the claims -/

/-- A closer under strict nesting: it must meet the opener of its own kind as the
most recent still-open structure, which it closes; `none` is a nesting error. The
list holds the still-open openers, the most recent first. -/
def closeStrict (opener : TokenType) : List TokenType → Option (List TokenType)
  | [] => none
  | top :: below => if top = opener then some below else none

/-- A closer under the lenient policy of lines 68-82: it closes the most recent
still-open structure when that is the opener of its own kind and is passed over
otherwise; `none` is a closer that comes when nothing is open. -/
def closeLenient (opener : TokenType) : List TokenType → Option (List TokenType)
  | [] => none
  | top :: below => if top = opener then some below else some (top :: below)

/-- The effect of one token type on the list of still-open openers, for a given
treatment of closers; only the structural types `{ } [ ]` have an effect. -/
def nestStep (close : TokenType → List TokenType → Option (List TokenType))
    (opened : List TokenType) (ty : TokenType) : Option (List TokenType) :=
  match ty with
  | .LeftBrace => some (.LeftBrace :: opened)
  | .LeftBracket => some (.LeftBracket :: opened)
  | .RightBrace => close .LeftBrace opened
  | .RightBracket => close .LeftBracket opened
  | _ => some opened

/-- The still-open openers after a sequence of token types read in order. -/
def nestRun (close : TokenType → List TokenType → Option (List TokenType)) :
    List TokenType → List TokenType → Option (List TokenType)
  | opened, [] => some opened
  | opened, ty :: tys =>
    match nestStep close opened ty with
    | some opened2 => nestRun close opened2 tys
    | none => none

/-- Correct nesting of the structural tokens of a token list: read in order, every
`}` closes the most recent still-open `{`, every `]` closes the most recent
still-open `[`, and nothing is left open. -/
def wellNested (ts : List Token) : Bool :=
  nestRun closeStrict [] (ts.map Token.Typ) = some []

/-- Nesting under the lenient policy: as `wellNested`, except that a closer that
meets a still-open opener of the other kind closes nothing and is passed over. -/
def wellNestedLenient (ts : List Token) : Bool :=
  nestRun closeLenient [] (ts.map Token.Typ) = some []

/-- The last token of the list has type EOF: the success signal. -/
def endsInEOF (ts : List Token) : Bool :=
  ts.getLast?.map Token.Typ = some .EOF

/-- The bytes a token stands for: its `Val`, and for a String token its `Val` put
back between two `"` bytes. -/
def Token.lexeme (t : Token) : List Nat :=
  if t.Typ = .String then [34] ++ t.Val ++ [34] else t.Val

/-- The concatenation, in order, of the lexemes of a token list. -/
def render : List Token → List Nat
  | [] => []
  | t :: ts => t.lexeme ++ render ts

/-- The whitespace bytes of the specification (section 4.2): space, tab, newline and
carriage return. -/
def isSpecWhitespace (c : Nat) : Bool :=
  c == 32 || c == 9 || c == 10 || c == 13

/-- The input with the bytes that `ws` accepts as white space and that lie outside
string literals removed. The flag says whether the scan is inside a string literal,
which begins and ends at a `"` byte. With `isSpecWhitespace` the white space is
that of the specification; with `unicodeIsSpace` it is what the scan loop skips. -/
def stripOutside (ws : Nat → Bool) : Bool → List Nat → List Nat
  | _, [] => []
  | false, c :: rest =>
    if c = 34 then c :: stripOutside ws true rest
    else if ws c then stripOutside ws false rest
    else c :: stripOutside ws false rest
  | true, c :: rest =>
    if c = 34 then c :: stripOutside ws false rest else c :: stripOutside ws true rest

/-- The state at the head of the scan loop after `n` iterations; `none` when the
call has ended before. -/
def stateAfter (input : List Nat) : Nat → Option State
  | 0 => some initialState
  | n + 1 =>
    match stateAfter input n with
    | some s =>
      match step input s with
      | .next s2 => some s2
      | .done _ => none
    | none => none

/-- The types `determineTokenType` can return: every type except String and EOF. -/
def classifierCanReturn (ty : TokenType) : Bool :=
  decide (ty ≠ .String) && decide (ty ≠ .EOF)

/-- The value-starters of the transition table of the specification: the string
opener (Quote), Number, Boolean, Null, `{` and `[`. -/
def isValueStarter (ty : TokenType) : Bool :=
  ty == .Quote || ty == .Number || ty == .Boolean || ty == .Null || ty == .LeftBrace ||
    ty == .LeftBracket

/-- The transition table of the specification (section 4.3), row by row: after the
start state, `,` and `:` a value-starter; after `{` a value-starter or `}`; after
`[` a value-starter or `]`; after `}` and `]` a `,` or the end of input; after a
number, a boolean or a null `,` `}` `]`; after a string the same and `:`. The
state EOF has no row. -/
def specAllows : TokenType → TokenType → Bool
  | .ILLEGAL, c => isValueStarter c
  | .Comma, c => isValueStarter c
  | .Colon, c => isValueStarter c
  | .LeftBrace, c => isValueStarter c || c == .RightBrace
  | .LeftBracket, c => isValueStarter c || c == .RightBracket
  | .RightBrace, c => c == .Comma || c == .EOF
  | .RightBracket, c => c == .Comma || c == .EOF
  | .Number, c => c == .Comma || c == .RightBrace || c == .RightBracket
  | .Boolean, c => c == .Comma || c == .RightBrace || c == .RightBracket
  | .Null, c => c == .Comma || c == .RightBrace || c == .RightBracket
  | .Quote, c => c == .Comma || c == .RightBrace || c == .RightBracket || c == .Colon
  | .String, c => c == .Comma || c == .RightBrace || c == .RightBracket || c == .Colon
  | .EOF, _ => false

/-- A token whose `Val` fits its `Typ`: a structural token has the one byte of its
punctuation; a Number token a non-empty string of ASCII digits; a Boolean token
`true` or `false`; a Null token `null`; a String token no `"` byte; an EOF token the
empty string; a token of type Quote never fits; an ILLEGAL token (whose `Val` is a
message) always does. -/
def Token.fits (t : Token) : Prop :=
  match t.Typ with
  | .LeftBrace => t.Val = [123]
  | .RightBrace => t.Val = [125]
  | .LeftBracket => t.Val = [91]
  | .RightBracket => t.Val = [93]
  | .Comma => t.Val = [44]
  | .Colon => t.Val = [58]
  | .Number => t.Val ≠ [] ∧ ∀ d ∈ t.Val, 48 ≤ d ∧ d ≤ 57
  | .Boolean => t.Val = bytesOf "true" ∨ t.Val = bytesOf "false"
  | .Null => t.Val = bytesOf "null"
  | .String => 34 ∉ t.Val
  | .EOF => t.Val = []
  | .Quote => False
  | .ILLEGAL => True

/-- The change of the nesting depth by one byte: `+1` for `{` and `[`, `-1` for `}`
and `]`, `0` for every other byte. -/
def bracketDelta (c : Nat) : Int :=
  if c = 123 ∨ c = 91 then 1 else if c = 125 ∨ c = 93 then -1 else 0

/-- The nesting depth of the bracket bytes of a byte string: the count of `{` and `[`
minus the count of `}` and `]`. -/
def bracketDepth : List Nat → Int
  | [] => 0
  | c :: rest => bracketDelta c + bracketDepth rest

/-- The nesting depth of the bracket bytes that lie outside string literals. The flag
says whether the scan is inside a string literal, which begins and ends at a `"`
byte. -/
def bracketDepthOutside : Bool → List Nat → Int
  | _, [] => 0
  | false, c :: rest =>
    if c = 34 then bracketDepthOutside true rest
    else bracketDelta c + bracketDepthOutside false rest
  | true, c :: rest =>
    if c = 34 then bracketDepthOutside false rest else bracketDepthOutside true rest

/-! ## Relations used to reason about the scan loop -/

/-- The effect of one structural byte on the nesting stack: the byte, the type it is
classified as, the stack before and the stack after. A closer on the empty stack has
no effect listed here (the call panics). -/
inductive Punct : Nat → TokenType → Stack → Stack → Prop where
  | leftBrace (st : Stack) : Punct 123 .LeftBrace st (st.Push .LeftBrace)
  | leftBracket (st : Stack) : Punct 91 .LeftBracket st (st.Push .LeftBracket)
  | rightBracePop (below : List TokenType) :
      Punct 125 .RightBrace ⟨below ++ [.LeftBrace]⟩ ⟨below⟩
  | rightBraceKeep (below : List TokenType) (top : TokenType) (h : top ≠ .LeftBrace) :
      Punct 125 .RightBrace ⟨below ++ [top]⟩ ⟨below ++ [top]⟩
  | rightBracketPop (below : List TokenType) :
      Punct 93 .RightBracket ⟨below ++ [.LeftBracket]⟩ ⟨below⟩
  | rightBracketKeep (below : List TokenType) (top : TokenType) (h : top ≠ .LeftBracket) :
      Punct 93 .RightBracket ⟨below ++ [top]⟩ ⟨below ++ [top]⟩
  | comma (st : Stack) : Punct 44 .Comma st st
  | colon (st : Stack) : Punct 58 .Colon st st

/-- The iterations of the scan loop that go round again, by what they read from
`input[s.curr:]`: `Moved input s s2` holds exactly when `step input s = .next s2`
(`step_eq_next_iff`). -/
inductive Moved (input : List Nat) (s : State) : State → Prop where
  | space (c : Nat) (tail : List Nat) (hin : input.drop s.curr = c :: tail)
      (hc : unicodeIsSpace c = true) :
      Moved input s ⟨s.curr + 1, s.tokens, s.stack, s.prevTokenType⟩
  | punct (c : Nat) (ty : TokenType) (st : Stack) (tail : List Nat)
      (hin : input.drop s.curr = c :: tail) (hp : Punct c ty s.stack st)
      (hv : isValidSequences s.prevTokenType ty = true) :
      Moved input s ⟨s.curr + 1, s.tokens ++ [⟨ty, [c]⟩], st, ty⟩
  | string (body tail : List Nat) (hin : input.drop s.curr = 34 :: (body ++ 34 :: tail))
      (hb : 34 ∉ body) (hv : isValidSequences s.prevTokenType .Quote = true) :
      Moved input s ⟨s.curr + 1 + body.length + 1, s.tokens ++ [⟨.String, body⟩], s.stack,
        .Quote⟩
  | number (ds tail : List Nat) (hin : input.drop s.curr = ds ++ tail) (hne : ds ≠ [])
      (hd : ∀ d ∈ ds, isDigit d = true) (ht : ∀ c ∈ tail.head?, isCloser c = true)
      (hv : isValidSequences s.prevTokenType .Number = true) :
      Moved input s ⟨s.curr + ds.length, s.tokens ++ [⟨.Number, ds⟩], s.stack, .Number⟩
  | boolean (c : Nat) (tail : List Nat) (hin : input.drop s.curr = trueLiteral ++ c :: tail)
      (hc : isCloser c = true) (hv : isValidSequences s.prevTokenType .Boolean = true) :
      Moved input s ⟨s.curr + 4, s.tokens ++ [⟨.Boolean, trueLiteral⟩], s.stack, .Boolean⟩
  | null (c : Nat) (tail : List Nat) (hin : input.drop s.curr = nullLiteral ++ c :: tail)
      (hc : isCloser c = true) (hv : isValidSequences s.prevTokenType .Null = true) :
      Moved input s ⟨s.curr + 4, s.tokens ++ [⟨.Null, nullLiteral⟩], s.stack, .Null⟩

/-- The iterations of the scan loop that end the call, by what they read from
`input[s.curr:]`: `Halted input s o` holds exactly when `step input s = .done o`
(`step_eq_done_iff`). -/
inductive Halted (input : List Nat) (s : State) : Outcome → Prop where
  | atEnd (h : input.length ≤ s.curr) : Halted input s (finish s)
  | invalid (c : Nat) (tail : List Nat) (ty : TokenType)
      (hin : input.drop s.curr = c :: tail) (hs : unicodeIsSpace c = false)
      (hty : determineTokenType c input s.curr = some ty)
      (hv : isValidSequences s.prevTokenType ty = false) :
      Halted input s (.returned (s.tokens ++ [⟨.ILLEGAL, msgInvalidSequence⟩]))
  | openString (body : List Nat) (hin : input.drop s.curr = 34 :: body) (hb : 34 ∉ body)
      (hv : isValidSequences s.prevTokenType .Quote = true) :
      Halted input s (.returned (s.tokens ++ [⟨.ILLEGAL, msgUnclosedString⟩]))
  | badNumber (ds tail : List Nat) (c : Nat) (hin : input.drop s.curr = ds ++ c :: tail)
      (hne : ds ≠ []) (hd : ∀ d ∈ ds, isDigit d = true) (hc1 : isDigit c = false)
      (hc2 : isCloser c = false) (hv : isValidSequences s.prevTokenType .Number = true) :
      Halted input s (.returned (s.tokens ++ [⟨.ILLEGAL, msgInvalidNumber⟩]))
  | trueAtEnd (hin : input.drop s.curr = trueLiteral) : Halted input s .panicked
  | nullAtEnd (hin : input.drop s.curr = nullLiteral) : Halted input s .panicked
  | closeEmpty (c : Nat) (tail : List Nat) (ty : TokenType)
      (hin : input.drop s.curr = c :: tail)
      (hc : (c = 125 ∧ ty = .RightBrace) ∨ (c = 93 ∧ ty = .RightBracket))
      (hv : isValidSequences s.prevTokenType ty = true) (hst : s.stack.TokenTypes = []) :
      Halted input s .panicked

/-! ## Basic facts -/

theorem bytesOf_true : bytesOf "true" = trueLiteral := by decide

theorem bytesOf_null : bytesOf "null" = nullLiteral := by decide

theorem advanceWhile_eq (p : Nat → Bool) (l : List Nat) (curr : Nat) :
    advanceWhile p l curr = curr + (l.takeWhile p).length := by
  induction l generalizing curr with
  | nil => simp [advanceWhile]
  | cons c rest ih =>
    by_cases h : p c = true
    · simp [advanceWhile, h, ih, List.takeWhile_cons]; omega
    · simp [advanceWhile, h, List.takeWhile_cons]

theorem isValidSequences_ILLEGAL (prev : TokenType) :
    isValidSequences prev .ILLEGAL = false := by
  cases prev <;> rfl

theorem take_length_eq_iff (l a : List Nat) :
    l.take a.length = a ↔ ∃ t, l = a ++ t := by
  constructor
  · intro h
    have h2 := List.take_append_drop a.length l
    rw [h] at h2
    exact ⟨l.drop a.length, h2.symm⟩
  · rintro ⟨t, rfl⟩
    simp

theorem getElem?_add_drop (input : List Nat) (index k : Nat) :
    input[index + k]? = (input.drop index)[k]? := by
  simp [List.getElem?_drop]

theorem slice_add (input : List Nat) (index k : Nat) :
    slice input index (index + k) = (input.drop index).take k := by
  simp [slice]

theorem isBooleanRest_eq (input : List Nat) (index : Nat) :
    isBooleanRest input index = some false := by
  unfold isBooleanRest
  split_ifs with h1 h2
  · rfl
  · have h3 : (input.drop index).take falseLiteral.length = falseLiteral := by
      rw [← slice_add]; exact not_not.mp h2
    obtain ⟨t, ht⟩ := (take_length_eq_iff _ _).mp h3
    rw [getElem?_add_drop, ht]
    simp [falseLiteral, trueLiteral, isCloser]
  · rfl

/-- The lookahead `isBoolean` in terms of the bytes from `index` on. -/
theorem isBoolean_eq (input : List Nat) (index : Nat) :
    isBoolean input index =
      if (input.drop index).take 4 = trueLiteral then
        match (input.drop index)[4]? with
        | none => none
        | some c => some (isCloser c)
      else some false := by
  unfold isBoolean
  simp only [isBooleanRest_eq, slice_add, getElem?_add_drop]
  have hlen : trueLiteral.length = 4 := rfl
  rw [hlen]
  by_cases h : (input.drop index).take 4 = trueLiteral
  · have h4 : input.length - index ≥ 4 := by
      have := congrArg List.length h
      simp [trueLiteral] at this
      omega
    simp only [h, h4, if_true, not_true, if_false, ne_eq]
    cases (input.drop index)[4]? with
    | none => rfl
    | some c => cases hc : isCloser c <;> simp [hc]
  · simp [h]

/-- The lookahead `isNull` in terms of the bytes from `index` on. -/
theorem isNull_eq (input : List Nat) (index : Nat) :
    isNull input index =
      if (input.drop index).take 4 = nullLiteral then
        match (input.drop index)[4]? with
        | none => none
        | some c => some (isCloser c)
      else some false := by
  unfold isNull
  simp only [slice_add, getElem?_add_drop]
  have hlen : nullLiteral.length = 4 := rfl
  rw [hlen]
  by_cases h : (input.drop index).take 4 = nullLiteral
  · have h4 : input.length - index ≥ 4 := by
      have := congrArg List.length h
      simp [nullLiteral] at this
      omega
    simp only [h, h4, if_true, not_true, if_false, ne_eq]
    cases (input.drop index)[4]? with
    | none => rfl
    | some c => cases hc : isCloser c <;> simp [hc]
  · simp [h]

theorem getElem?_of_drop_eq {input : List Nat} {i c : Nat} {t : List Nat}
    (h : input.drop i = c :: t) : input[i]? = some c := by
  have h2 := getElem?_add_drop input i 0
  rw [h] at h2
  simpa using h2

theorem drop_add_of_drop_eq {input : List Nat} {i : Nat} {a t : List Nat}
    (h : input.drop i = a ++ t) : input.drop (i + a.length) = t := by
  have h2 : input.drop (i + a.length) = (input.drop i).drop a.length := by
    rw [List.drop_drop]
  rw [h2, h]
  simp

theorem length_of_drop_eq {input : List Nat} {i : Nat} {a t : List Nat}
    (h : input.drop i = a ++ t) (ha : a ≠ []) : input.length = i + a.length + t.length := by
  have h2 := congrArg List.length h
  have h3 : 0 < a.length := List.length_pos.mpr ha
  simp at h2
  omega

theorem isCloser_iff (c : Nat) : isCloser c = true ↔ c = 44 ∨ c = 125 ∨ c = 93 := by
  simp [isCloser, or_assoc]

theorem isTerminatingCharacter_eq (c : Nat) : isTerminatingCharacter c = isCloser c := by
  simp [isTerminatingCharacter, isCloser]

theorem unicodeIsSpace_iff (c : Nat) : unicodeIsSpace c = true ↔
    c = 9 ∨ c = 10 ∨ c = 11 ∨ c = 12 ∨ c = 13 ∨ c = 32 ∨ c = 133 ∨ c = 160 := by
  simp [unicodeIsSpace, or_assoc]

theorem isCloser_not_digit {c : Nat} (h : isCloser c = true) : isDigit c = false := by
  rw [isCloser_iff] at h
  rcases h with rfl | rfl | rfl <;> rfl

theorem determineTokenType_space {c : Nat} (h : unicodeIsSpace c = true) (input : List Nat)
    (i : Nat) : determineTokenType c input i = some .ILLEGAL := by
  rw [unicodeIsSpace_iff] at h
  rcases h with rfl | rfl | rfl | rfl | rfl | rfl | rfl | rfl <;>
    simp [determineTokenType, unicodeIsDigit]

theorem determineTokenType_digit {c : Nat} (h : isDigit c = true) (input : List Nat)
    (i : Nat) : determineTokenType c input i = some .Number := by
  simp [isDigit] at h
  have h1 : c ≠ 123 := by omega
  have h2 : c ≠ 125 := by omega
  have h3 : c ≠ 91 := by omega
  have h4 : c ≠ 93 := by omega
  have h5 : c ≠ 44 := by omega
  have h6 : c ≠ 58 := by omega
  have h7 : c ≠ 34 := by omega
  simp [determineTokenType, unicodeIsDigit, h1, h2, h3, h4, h5, h6, h7, h.1, h.2]

theorem digit_not_space {c : Nat} (h : isDigit c = true) : unicodeIsSpace c = false := by
  simp [isDigit] at h
  cases hs : unicodeIsSpace c
  · rfl
  · rw [unicodeIsSpace_iff] at hs
    omega

/-! ## The iterations of the scan loop -/

theorem advanceWhile_append {p : Nat → Bool} {a t : List Nat} (curr : Nat)
    (ha : ∀ x ∈ a, p x = true) (ht : ∀ c ∈ t.head?, p c = false) :
    advanceWhile p (a ++ t) curr = curr + a.length := by
  induction a generalizing curr with
  | nil =>
    cases t with
    | nil => simp [advanceWhile]
    | cons c t => simp [advanceWhile, ht c (by simp)]
  | cons x a ih =>
    have hx : p x = true := ha x (by simp)
    have ih2 := ih (curr + 1) (fun y hy => ha y (by simp [hy]))
    have ih3 : advanceWhile p (a.append t) (curr + 1) = curr + 1 + a.length := ih2
    simp only [List.cons_append, advanceWhile, hx, if_true, List.length_cons]
    show advanceWhile p (a.append t) (curr + 1) = curr + (a.length + 1)
    omega

theorem step_punct {input : List Nat} {s : State} {c : Nat} {ty : TokenType} {st : Stack}
    {tail : List Nat} (hin : input.drop s.curr = c :: tail) (hp : Punct c ty s.stack st)
    (hv : isValidSequences s.prevTokenType ty = true) :
    step input s = .next ⟨s.curr + 1, s.tokens ++ [⟨ty, [c]⟩], st, ty⟩ := by
  have hc := getElem?_of_drop_eq hin
  obtain ⟨curr, tokens, stack, prev⟩ := s
  simp only at hp hin hc hv
  cases hp <;>
    simp [step, hc, determineTokenType, unicodeIsSpace, unicodeIsDigit, hv, switchCase,
      fallOut, closeCase, Stack.Peek, Stack.Pop, Stack.Push] <;>
    assumption

theorem step_space {input : List Nat} {s : State} {c : Nat} {tail : List Nat}
    (hin : input.drop s.curr = c :: tail) (hc : unicodeIsSpace c = true) :
    step input s = .next ⟨s.curr + 1, s.tokens, s.stack, s.prevTokenType⟩ := by
  simp [step, getElem?_of_drop_eq hin, determineTokenType_space hc, hc]

theorem step_string {input : List Nat} {s : State} {body tail : List Nat}
    (hin : input.drop s.curr = 34 :: (body ++ 34 :: tail)) (hb : 34 ∉ body)
    (hv : isValidSequences s.prevTokenType .Quote = true) :
    step input s =
      .next ⟨s.curr + 1 + body.length + 1, s.tokens ++ [⟨.String, body⟩], s.stack, .Quote⟩ := by
  have hc := getElem?_of_drop_eq hin
  have hd : input.drop (s.curr + 1) = body ++ 34 :: tail :=
    drop_add_of_drop_eq (a := [34]) hin
  have hlen := length_of_drop_eq (a := [34]) hin (by simp)
  have hadv : advanceWhile (fun c => c != 34) (body ++ 34 :: tail) (s.curr + 1)
      = s.curr + 1 + body.length := by
    apply advanceWhile_append
    · intro x hx
      have : x ≠ 34 := fun h => hb (h ▸ hx)
      simpa using this
    · simp
  simp [step, hc, determineTokenType, unicodeIsSpace, hv, switchCase, quoteCase, hd, hadv,
    hlen, slice]

theorem step_string_open {input : List Nat} {s : State} {body : List Nat}
    (hin : input.drop s.curr = 34 :: body) (hb : 34 ∉ body)
    (hv : isValidSequences s.prevTokenType .Quote = true) :
    step input s = .done (.returned (s.tokens ++ [⟨.ILLEGAL, msgUnclosedString⟩])) := by
  have hc := getElem?_of_drop_eq hin
  have hd : input.drop (s.curr + 1) = body :=
    drop_add_of_drop_eq (a := [34]) hin
  have hlen := length_of_drop_eq (a := [34]) hin (by simp)
  have hadv : advanceWhile (fun c => c != 34) body (s.curr + 1)
      = s.curr + 1 + body.length := by
    have h2 : advanceWhile (fun c => c != 34) (body ++ []) (s.curr + 1)
        = s.curr + 1 + body.length := by
      apply advanceWhile_append
      · intro x hx
        have : x ≠ 34 := fun h => hb (h ▸ hx)
        simpa using this
      · simp
    simpa using h2
  simp [step, hc, determineTokenType, unicodeIsSpace, hv, switchCase, quoteCase, hd, hadv,
    hlen]

theorem unicodeIsDigit_eq (c : Nat) : unicodeIsDigit c = isDigit c := rfl

theorem step_number_enter {input : List Nat} {s : State} {d : Nat} {t : List Nat}
    (hin : input.drop s.curr = d :: t) (hd : isDigit d = true)
    (hv : isValidSequences s.prevTokenType .Number = true) :
    step input s = numberCase input s := by
  simp [step, getElem?_of_drop_eq hin, determineTokenType_digit hd, digit_not_space hd, hv,
    switchCase, defaultCase, unicodeIsDigit_eq, hd]

theorem numberCase_facts {input : List Nat} {s : State} {ds tail : List Nat}
    (hin : input.drop s.curr = ds ++ tail) (hne : ds ≠ [])
    (hd : ∀ d ∈ ds, isDigit d = true) (ht : ∀ c ∈ tail.head?, isDigit c = false) :
    advanceWhile isDigit (input.drop s.curr) s.curr = s.curr + ds.length ∧
    input[s.curr + ds.length]? = tail.head? ∧
    slice input s.curr (s.curr + ds.length) = ds ∧
    input.length = s.curr + ds.length + tail.length := by
  refine ⟨?_, ?_, ?_, length_of_drop_eq hin hne⟩
  · rw [hin]
    exact advanceWhile_append _ hd ht
  · rw [getElem?_add_drop, hin, List.getElem?_append_right (le_refl _)]
    cases tail <;> simp
  · rw [slice_add, hin]
    simp

theorem step_number {input : List Nat} {s : State} {ds tail : List Nat}
    (hin : input.drop s.curr = ds ++ tail) (hne : ds ≠ [])
    (hd : ∀ d ∈ ds, isDigit d = true) (ht : ∀ c ∈ tail.head?, isCloser c = true)
    (hv : isValidSequences s.prevTokenType .Number = true) :
    step input s = .next ⟨s.curr + ds.length, s.tokens ++ [⟨.Number, ds⟩], s.stack, .Number⟩ := by
  obtain ⟨hadv, hget, hsl, hlen⟩ :=
    numberCase_facts hin hne hd (fun c hc => isCloser_not_digit (ht c hc))
  obtain ⟨d, ds2, hds⟩ := List.exists_cons_of_ne_nil hne
  rw [step_number_enter (d := d) (t := ds2 ++ tail) (by simpa [hds] using hin)
    (hd d (by simp [hds])) hv]
  unfold numberCase
  simp only [hadv, hsl, hget, hlen]
  cases tail with
  | nil => simp
  | cons c tail => simp [isTerminatingCharacter_eq, ht c (by simp)]

theorem step_number_bad {input : List Nat} {s : State} {ds tail : List Nat} {c : Nat}
    (hin : input.drop s.curr = ds ++ c :: tail) (hne : ds ≠ [])
    (hd : ∀ d ∈ ds, isDigit d = true) (hc1 : isDigit c = false) (hc2 : isCloser c = false)
    (hv : isValidSequences s.prevTokenType .Number = true) :
    step input s = .done (.returned (s.tokens ++ [⟨.ILLEGAL, msgInvalidNumber⟩])) := by
  obtain ⟨hadv, hget, hsl, hlen⟩ :=
    numberCase_facts hin hne hd (fun x hx => by simp at hx; subst hx; exact hc1)
  obtain ⟨d, ds2, hds⟩ := List.exists_cons_of_ne_nil hne
  rw [step_number_enter (d := d) (t := ds2 ++ c :: tail) (by simpa [hds] using hin)
    (hd d (by simp [hds])) hv]
  unfold numberCase
  simp only [hadv, hsl, hget, hlen]
  simp [isTerminatingCharacter_eq, hc2]

theorem isBoolean_of_true {input : List Nat} {i c : Nat} {tail : List Nat}
    (hin : input.drop i = trueLiteral ++ c :: tail) :
    isBoolean input i = some (isCloser c) := by
  rw [isBoolean_eq, hin]
  simp [trueLiteral]

theorem isBoolean_of_true_end {input : List Nat} {i : Nat}
    (hin : input.drop i = trueLiteral) : isBoolean input i = none := by
  rw [isBoolean_eq, hin]
  simp [trueLiteral]

theorem isNull_of_null {input : List Nat} {i c : Nat} {tail : List Nat}
    (hin : input.drop i = nullLiteral ++ c :: tail) :
    isNull input i = some (isCloser c) := by
  rw [isNull_eq, hin]
  simp [nullLiteral]

theorem isNull_of_null_end {input : List Nat} {i : Nat}
    (hin : input.drop i = nullLiteral) : isNull input i = none := by
  rw [isNull_eq, hin]
  simp [nullLiteral]

theorem step_boolean {input : List Nat} {s : State} {c : Nat} {tail : List Nat}
    (hin : input.drop s.curr = trueLiteral ++ c :: tail) (hc : isCloser c = true)
    (hv : isValidSequences s.prevTokenType .Boolean = true) :
    step input s =
      .next ⟨s.curr + 4, s.tokens ++ [⟨.Boolean, trueLiteral⟩], s.stack, .Boolean⟩ := by
  have hb := isBoolean_of_true hin
  rw [hc] at hb
  have hget : input[s.curr]? = some 116 :=
    getElem?_of_drop_eq (t := [114, 117, 101] ++ c :: tail) (by rw [hin]; rfl)
  have hsl : slice input s.curr (s.curr + 4) = trueLiteral := by
    rw [slice_add, hin]
    simp [trueLiteral]
  simp [step, hget, determineTokenType, unicodeIsDigit, unicodeIsSpace, hb, hv, switchCase,
    defaultCase, booleanCase, hsl, bytesOf_true]

theorem step_true_end {input : List Nat} {s : State}
    (hin : input.drop s.curr = trueLiteral) : step input s = .done .panicked := by
  have hb := isBoolean_of_true_end hin
  have hget : input[s.curr]? = some 116 :=
    getElem?_of_drop_eq (t := [114, 117, 101]) (by rw [hin]; rfl)
  simp [step, hget, determineTokenType, unicodeIsDigit, hb]

theorem step_null {input : List Nat} {s : State} {c : Nat} {tail : List Nat}
    (hin : input.drop s.curr = nullLiteral ++ c :: tail) (hc : isCloser c = true)
    (hv : isValidSequences s.prevTokenType .Null = true) :
    step input s =
      .next ⟨s.curr + 4, s.tokens ++ [⟨.Null, nullLiteral⟩], s.stack, .Null⟩ := by
  have hb := isNull_of_null hin
  rw [hc] at hb
  have hget : input[s.curr]? = some 110 :=
    getElem?_of_drop_eq (t := [117, 108, 108] ++ c :: tail) (by rw [hin]; rfl)
  have hsl : slice input s.curr (s.curr + 4) = nullLiteral := by
    rw [slice_add, hin]
    simp [nullLiteral]
  simp [step, hget, determineTokenType, unicodeIsDigit, unicodeIsSpace, hb, hv, switchCase,
    defaultCase, nullCase, hsl, bytesOf_null]

theorem step_null_end {input : List Nat} {s : State}
    (hin : input.drop s.curr = nullLiteral) : step input s = .done .panicked := by
  have hb := isNull_of_null_end hin
  have hget : input[s.curr]? = some 110 :=
    getElem?_of_drop_eq (t := [117, 108, 108]) (by rw [hin]; rfl)
  simp [step, hget, determineTokenType, unicodeIsDigit, hb]

theorem step_end {input : List Nat} {s : State} (h : input.length ≤ s.curr) :
    step input s = .done (finish s) := by
  have hget : input[s.curr]? = none := List.getElem?_eq_none h
  simp [step, hget]

theorem step_invalid {input : List Nat} {s : State} {c : Nat} {tail : List Nat}
    {ty : TokenType} (hin : input.drop s.curr = c :: tail) (hs : unicodeIsSpace c = false)
    (hty : determineTokenType c input s.curr = some ty)
    (hv : isValidSequences s.prevTokenType ty = false) :
    step input s = .done (.returned (s.tokens ++ [⟨.ILLEGAL, msgInvalidSequence⟩])) := by
  simp [step, getElem?_of_drop_eq hin, hty, hs, hv]

theorem step_close_empty {input : List Nat} {s : State} {c : Nat} {tail : List Nat}
    {ty : TokenType} (hin : input.drop s.curr = c :: tail)
    (hc : (c = 125 ∧ ty = .RightBrace) ∨ (c = 93 ∧ ty = .RightBracket))
    (hv : isValidSequences s.prevTokenType ty = true) (hst : s.stack.TokenTypes = []) :
    step input s = .done .panicked := by
  have hget := getElem?_of_drop_eq hin
  rcases hc with ⟨rfl, rfl⟩ | ⟨rfl, rfl⟩ <;>
    simp [step, hget, determineTokenType, unicodeIsSpace, hv, switchCase, closeCase,
      Stack.Peek, hst]

/-- Every iteration listed by `Moved` is what `step` computes. -/
theorem step_of_moved {input : List Nat} {s s2 : State} (h : Moved input s s2) :
    step input s = .next s2 := by
  cases h with
  | space c tail hin hc => exact step_space hin hc
  | punct c ty st tail hin hp hv => exact step_punct hin hp hv
  | string body tail hin hb hv => exact step_string hin hb hv
  | number ds tail hin hne hd ht hv => exact step_number hin hne hd ht hv
  | boolean c tail hin hc hv => exact step_boolean hin hc hv
  | null c tail hin hc hv => exact step_null hin hc hv

/-- Every iteration listed by `Halted` is what `step` computes. -/
theorem step_of_halted {input : List Nat} {s : State} {o : Outcome} (h : Halted input s o) :
    step input s = .done o := by
  cases h with
  | atEnd h => exact step_end h
  | invalid c tail ty hin hs hty hv => exact step_invalid hin hs hty hv
  | openString body hin hb hv => exact step_string_open hin hb hv
  | badNumber ds tail c hin hne hd hc1 hc2 hv => exact step_number_bad hin hne hd hc1 hc2 hv
  | trueAtEnd hin => exact step_true_end hin
  | nullAtEnd hin => exact step_null_end hin
  | closeEmpty c tail ty hin hc hv hst => exact step_close_empty hin hc hv hst

theorem isBoolean_cases (input : List Nat) (i : Nat) :
    (isBoolean input i = none ∧ input.drop i = trueLiteral) ∨
    (isBoolean input i = some true ∧
      ∃ c tail, input.drop i = trueLiteral ++ c :: tail ∧ isCloser c = true) ∨
    isBoolean input i = some false := by
  by_cases h : (input.drop i).take trueLiteral.length = trueLiteral
  · obtain ⟨t, ht⟩ := (take_length_eq_iff _ _).mp h
    cases t with
    | nil =>
      left
      rw [List.append_nil] at ht
      exact ⟨isBoolean_of_true_end ht, ht⟩
    | cons c tail =>
      right
      rw [isBoolean_of_true ht]
      cases hc : isCloser c
      · right; rfl
      · left; exact ⟨rfl, c, tail, ht, hc⟩
  · right; right
    rw [isBoolean_eq]
    exact if_neg h

theorem isNull_cases (input : List Nat) (i : Nat) :
    (isNull input i = none ∧ input.drop i = nullLiteral) ∨
    (isNull input i = some true ∧
      ∃ c tail, input.drop i = nullLiteral ++ c :: tail ∧ isCloser c = true) ∨
    isNull input i = some false := by
  by_cases h : (input.drop i).take nullLiteral.length = nullLiteral
  · obtain ⟨t, ht⟩ := (take_length_eq_iff _ _).mp h
    cases t with
    | nil =>
      left
      rw [List.append_nil] at ht
      exact ⟨isNull_of_null_end ht, ht⟩
    | cons c tail =>
      right
      rw [isNull_of_null ht]
      cases hc : isCloser c
      · right; rfl
      · left; exact ⟨rfl, c, tail, ht, hc⟩
  · right; right
    rw [isNull_eq]
    exact if_neg h

/-- What the classifier has seen when it returns a type. -/
theorem determineTokenType_cases {c : Nat} {input : List Nat} {i : Nat} {ty : TokenType}
    (h : determineTokenType c input i = some ty) :
    (c = 123 ∧ ty = .LeftBrace) ∨ (c = 125 ∧ ty = .RightBrace) ∨
    (c = 91 ∧ ty = .LeftBracket) ∨ (c = 93 ∧ ty = .RightBracket) ∨
    (c = 44 ∧ ty = .Comma) ∨ (c = 58 ∧ ty = .Colon) ∨ (c = 34 ∧ ty = .Quote) ∨
    (isDigit c = true ∧ ty = .Number) ∨
    (ty = .Boolean ∧ isBoolean input i = some true) ∨
    (ty = .Null ∧ isNull input i = some true) ∨ ty = .ILLEGAL := by
  unfold determineTokenType at h
  by_cases h1 : c = 123
  · rw [if_pos h1] at h
    exact Or.inl ⟨h1, (Option.some.inj h).symm⟩
  rw [if_neg h1] at h
  by_cases h2 : c = 125
  · rw [if_pos h2] at h
    exact Or.inr (Or.inl ⟨h2, (Option.some.inj h).symm⟩)
  rw [if_neg h2] at h
  by_cases h3 : c = 91
  · rw [if_pos h3] at h
    exact Or.inr (Or.inr (Or.inl ⟨h3, (Option.some.inj h).symm⟩))
  rw [if_neg h3] at h
  by_cases h4 : c = 93
  · rw [if_pos h4] at h
    exact Or.inr (Or.inr (Or.inr (Or.inl ⟨h4, (Option.some.inj h).symm⟩)))
  rw [if_neg h4] at h
  by_cases h5 : c = 44
  · rw [if_pos h5] at h
    exact Or.inr (Or.inr (Or.inr (Or.inr (Or.inl ⟨h5, (Option.some.inj h).symm⟩))))
  rw [if_neg h5] at h
  by_cases h6 : c = 58
  · rw [if_pos h6] at h
    exact Or.inr (Or.inr (Or.inr (Or.inr (Or.inr (Or.inl ⟨h6, (Option.some.inj h).symm⟩)))))
  rw [if_neg h6] at h
  by_cases h7 : c = 34
  · rw [if_pos h7] at h
    exact Or.inr (Or.inr (Or.inr (Or.inr (Or.inr (Or.inr
      (Or.inl ⟨h7, (Option.some.inj h).symm⟩))))))
  rw [if_neg h7] at h
  by_cases h8 : unicodeIsDigit c = true
  · rw [if_pos h8] at h
    exact Or.inr (Or.inr (Or.inr (Or.inr (Or.inr (Or.inr (Or.inr
      (Or.inl ⟨h8, (Option.some.inj h).symm⟩)))))))
  rw [if_neg h8] at h
  refine Or.inr (Or.inr (Or.inr (Or.inr (Or.inr (Or.inr (Or.inr (Or.inr ?_)))))))
  by_cases h9 : c = 116 ∨ c = 102
  · rw [if_pos h9] at h
    rcases hb : isBoolean input i with _ | _ | _
    · rw [hb] at h; exact Option.noConfusion h
    · rw [hb] at h; exact Or.inr (Or.inr (Option.some.inj h).symm)
    · rw [hb] at h; exact Or.inl ⟨(Option.some.inj h).symm, rfl⟩
  rw [if_neg h9] at h
  by_cases h10 : c = 110
  · rw [if_pos h10] at h
    rcases hb : isNull input i with _ | _ | _
    · rw [hb] at h; exact Option.noConfusion h
    · rw [hb] at h; exact Or.inr (Or.inr (Option.some.inj h).symm)
    · rw [hb] at h; exact Or.inr (Or.inl ⟨(Option.some.inj h).symm, rfl⟩)
  rw [if_neg h10] at h
  exact Or.inr (Or.inr (Option.some.inj h).symm)

theorem determineTokenType_none {c : Nat} {input : List Nat} {i : Nat}
    (h : determineTokenType c input i = none) :
    isBoolean input i = none ∨ isNull input i = none := by
  unfold determineTokenType at h
  by_cases h1 : c = 123
  · rw [if_pos h1] at h; exact Option.noConfusion h
  rw [if_neg h1] at h
  by_cases h2 : c = 125
  · rw [if_pos h2] at h; exact Option.noConfusion h
  rw [if_neg h2] at h
  by_cases h3 : c = 91
  · rw [if_pos h3] at h; exact Option.noConfusion h
  rw [if_neg h3] at h
  by_cases h4 : c = 93
  · rw [if_pos h4] at h; exact Option.noConfusion h
  rw [if_neg h4] at h
  by_cases h5 : c = 44
  · rw [if_pos h5] at h; exact Option.noConfusion h
  rw [if_neg h5] at h
  by_cases h6 : c = 58
  · rw [if_pos h6] at h; exact Option.noConfusion h
  rw [if_neg h6] at h
  by_cases h7 : c = 34
  · rw [if_pos h7] at h; exact Option.noConfusion h
  rw [if_neg h7] at h
  by_cases h8 : unicodeIsDigit c = true
  · rw [if_pos h8] at h; exact Option.noConfusion h
  rw [if_neg h8] at h
  by_cases h9 : c = 116 ∨ c = 102
  · rw [if_pos h9] at h
    rcases hb : isBoolean input i with _ | _ | _
    · exact Or.inl rfl
    · rw [hb] at h; exact Option.noConfusion h
    · rw [hb] at h; exact Option.noConfusion h
  rw [if_neg h9] at h
  by_cases h10 : c = 110
  · rw [if_pos h10] at h
    rcases hb : isNull input i with _ | _ | _
    · exact Or.inr rfl
    · rw [hb] at h; exact Option.noConfusion h
    · rw [hb] at h; exact Option.noConfusion h
  rw [if_neg h10] at h
  exact Option.noConfusion h

theorem split_at_quote (l : List Nat) :
    34 ∉ l ∨ ∃ body tail, l = body ++ 34 :: tail ∧ 34 ∉ body := by
  induction l with
  | nil => left; simp
  | cons x l ih =>
    by_cases hx : x = 34
    · right; exact ⟨[], l, by simp [hx], by simp⟩
    · rcases ih with h | ⟨body, tail, rfl, hb⟩
      · left
        simp only [List.mem_cons, not_or]
        exact ⟨fun h2 => hx h2.symm, h⟩
      · right
        refine ⟨x :: body, tail, by simp, ?_⟩
        simp only [List.mem_cons, not_or]
        exact ⟨fun h2 => hx h2.symm, hb⟩

theorem split_digits (l : List Nat) :
    ∃ ds tail, l = ds ++ tail ∧ (∀ d ∈ ds, isDigit d = true) ∧
      ∀ c ∈ tail.head?, isDigit c = false := by
  induction l with
  | nil => exact ⟨[], [], by simp, by simp, by simp⟩
  | cons x l ih =>
    cases hx : isDigit x
    · exact ⟨[], x :: l, by simp, by simp, by simp [hx]⟩
    · obtain ⟨ds, tail, rfl, hd, ht⟩ := ih
      refine ⟨x :: ds, tail, by simp, ?_, ht⟩
      intro d hd2
      rcases List.mem_cons.mp hd2 with rfl | h
      · exact hx
      · exact hd d h

/-- Every iteration either goes round again as listed by `Moved` or ends the call as
listed by `Halted`. -/
theorem step_total (input : List Nat) (s : State) :
    (∃ s2, Moved input s s2) ∨ ∃ o, Halted input s o := by
  cases hrest : input.drop s.curr with
  | nil => exact Or.inr ⟨_, .atEnd (List.drop_eq_nil_iff.mp hrest)⟩
  | cons c tail =>
    cases hs : unicodeIsSpace c with
    | true => exact Or.inl ⟨_, .space c tail hrest hs⟩
    | false =>
      cases hty : determineTokenType c input s.curr with
      | none =>
        rcases determineTokenType_none hty with hb | hn
        · rcases isBoolean_cases input s.curr with ⟨_, h⟩ | ⟨h, _⟩ | h
          · exact Or.inr ⟨_, .trueAtEnd h⟩
          · rw [hb] at h; exact Option.noConfusion h
          · rw [hb] at h; exact Option.noConfusion h
        · rcases isNull_cases input s.curr with ⟨_, h⟩ | ⟨h, _⟩ | h
          · exact Or.inr ⟨_, .nullAtEnd h⟩
          · rw [hn] at h; exact Option.noConfusion h
          · rw [hn] at h; exact Option.noConfusion h
      | some ty =>
        cases hv : isValidSequences s.prevTokenType ty with
        | false => exact Or.inr ⟨_, .invalid c tail ty hrest hs hty hv⟩
        | true =>
          rcases determineTokenType_cases hty with ⟨rfl, rfl⟩ | ⟨rfl, rfl⟩ | ⟨rfl, rfl⟩ |
            ⟨rfl, rfl⟩ | ⟨rfl, rfl⟩ | ⟨rfl, rfl⟩ | ⟨rfl, rfl⟩ | ⟨hd, rfl⟩ | ⟨rfl, hb⟩ |
            ⟨rfl, hn⟩ | rfl
          · exact Or.inl ⟨_, .punct _ _ _ tail hrest (.leftBrace _) hv⟩
          · rcases List.eq_nil_or_concat s.stack.TokenTypes with hst | ⟨below, top, hst⟩
            · exact Or.inr ⟨_, .closeEmpty _ tail _ hrest (Or.inl ⟨rfl, rfl⟩) hv hst⟩
            · have hst2 : s.stack = ⟨below ++ [top]⟩ := by
                cases hstk : s.stack
                rw [hstk] at hst
                simpa using hst
              by_cases htop : top = .LeftBrace
              · subst htop
                exact Or.inl ⟨_, .punct _ _ ⟨below⟩ tail hrest
                  (hst2 ▸ .rightBracePop below) hv⟩
              · exact Or.inl ⟨_, .punct _ _ ⟨below ++ [top]⟩ tail hrest
                  (hst2 ▸ .rightBraceKeep below top htop) hv⟩
          · exact Or.inl ⟨_, .punct _ _ _ tail hrest (.leftBracket _) hv⟩
          · rcases List.eq_nil_or_concat s.stack.TokenTypes with hst | ⟨below, top, hst⟩
            · exact Or.inr ⟨_, .closeEmpty _ tail _ hrest (Or.inr ⟨rfl, rfl⟩) hv hst⟩
            · have hst2 : s.stack = ⟨below ++ [top]⟩ := by
                cases hstk : s.stack
                rw [hstk] at hst
                simpa using hst
              by_cases htop : top = .LeftBracket
              · subst htop
                exact Or.inl ⟨_, .punct _ _ ⟨below⟩ tail hrest
                  (hst2 ▸ .rightBracketPop below) hv⟩
              · exact Or.inl ⟨_, .punct _ _ ⟨below ++ [top]⟩ tail hrest
                  (hst2 ▸ .rightBracketKeep below top htop) hv⟩
          · exact Or.inl ⟨_, .punct _ _ _ tail hrest (.comma _) hv⟩
          · exact Or.inl ⟨_, .punct _ _ _ tail hrest (.colon _) hv⟩
          · rcases split_at_quote tail with h | ⟨body, tail2, rfl, hb⟩
            · exact Or.inr ⟨_, .openString tail hrest h hv⟩
            · exact Or.inl ⟨_, .string body tail2 hrest hb hv⟩
          · obtain ⟨ds, tail2, rfl, hds, ht⟩ := split_digits tail
            have hall : ∀ d ∈ c :: ds, isDigit d = true := by
              intro d hd2
              rcases List.mem_cons.mp hd2 with rfl | h
              · exact hd
              · exact hds d h
            have hrest2 : input.drop s.curr = (c :: ds) ++ tail2 := by simpa using hrest
            cases tail2 with
            | nil =>
              exact Or.inl ⟨_, .number (c :: ds) [] hrest2 (by simp) hall (by simp) hv⟩
            | cons x tail3 =>
              have hx : isDigit x = false := ht x (by simp)
              cases hcl : isCloser x with
              | false =>
                exact Or.inr ⟨_, .badNumber (c :: ds) tail3 x hrest2 (by simp) hall hx hcl hv⟩
              | true =>
                exact Or.inl ⟨_, .number (c :: ds) (x :: tail3) hrest2 (by simp) hall
                  (by simpa using hcl) hv⟩
          · rcases isBoolean_cases input s.curr with ⟨h, _⟩ | ⟨_, x, tail2, h, hx⟩ | h
            · rw [hb] at h; exact Option.noConfusion h
            · exact Or.inl ⟨_, .boolean x tail2 h hx hv⟩
            · rw [hb] at h; simp at h
          · rcases isNull_cases input s.curr with ⟨h, _⟩ | ⟨_, x, tail2, h, hx⟩ | h
            · rw [hn] at h; exact Option.noConfusion h
            · exact Or.inl ⟨_, .null x tail2 h hx hv⟩
            · rw [hn] at h; simp at h
          · rw [isValidSequences_ILLEGAL] at hv
            exact Bool.noConfusion hv

/-- The iterations that go round again are exactly those listed by `Moved`. -/
theorem step_eq_next_iff {input : List Nat} {s s2 : State} :
    step input s = .next s2 ↔ Moved input s s2 := by
  constructor
  · intro h
    rcases step_total input s with ⟨s3, hm⟩ | ⟨o, hh⟩
    · have h2 := step_of_moved hm
      rw [h] at h2
      cases h2
      exact hm
    · have h2 := step_of_halted hh
      rw [h] at h2
      cases h2
  · exact step_of_moved

/-- The iterations that end the call are exactly those listed by `Halted`. -/
theorem step_eq_done_iff {input : List Nat} {s : State} {o : Outcome} :
    step input s = .done o ↔ Halted input s o := by
  constructor
  · intro h
    rcases step_total input s with ⟨s3, hm⟩ | ⟨o2, hh⟩
    · have h2 := step_of_moved hm
      rw [h] at h2
      cases h2
    · have h2 := step_of_halted hh
      rw [h] at h2
      cases h2
      exact hh
  · exact step_of_halted

/-! ## Progress of the cursor and the fuel of `scanLoop` -/

/-- An iteration that goes round again moves the cursor forward, and never past the
end of the buffer. -/
theorem Moved.curr_lt {input : List Nat} {s s2 : State} (h : Moved input s s2) :
    s.curr < s2.curr ∧ s2.curr ≤ input.length := by
  cases h with
  | space c tail hin hc =>
    have := length_of_drop_eq (a := [c]) hin (by simp)
    simp at this ⊢
    omega
  | punct c ty st tail hin hp hv =>
    have := length_of_drop_eq (a := [c]) hin (by simp)
    simp at this ⊢
    omega
  | string body tail hin hb hv =>
    have := length_of_drop_eq (a := [34]) hin (by simp)
    simp at this ⊢
    omega
  | number ds tail hin hne hd ht hv =>
    have := length_of_drop_eq hin hne
    have := List.length_pos.mpr hne
    simp
    omega
  | boolean c tail hin hc hv =>
    have := length_of_drop_eq hin (by simp [trueLiteral])
    simp [trueLiteral] at this ⊢
    omega
  | null c tail hin hc hv =>
    have := length_of_drop_eq hin (by simp [nullLiteral])
    simp [nullLiteral] at this ⊢
    omega

theorem Halted.ne_outOfFuel {input : List Nat} {s : State} {o : Outcome}
    (h : Halted input s o) : o ≠ .outOfFuel := by
  cases h <;> simp [finish]
  split_ifs <;> simp

/-- With more fuel than bytes left, the scan loop does not run out of fuel. -/
theorem scanLoop_fuel_enough (input : List Nat) :
    ∀ (fuel : Nat) (s : State), s.curr ≤ input.length → input.length < s.curr + fuel →
      scanLoop input fuel s ≠ .outOfFuel := by
  intro fuel
  induction fuel with
  | zero => intro s h1 h2; omega
  | succ fuel ih =>
    intro s h1 h2
    unfold scanLoop
    cases hst : step input s with
    | next s2 =>
      have hm := (step_eq_next_iff.mp hst).curr_lt
      exact ih s2 hm.2 (by omega)
    | done o => exact (step_eq_done_iff.mp hst).ne_outOfFuel

/-- More fuel does not change a result that was reached. -/
theorem scanLoop_mono (input : List Nat) :
    ∀ (fuel : Nat) (s : State) (o : Outcome), scanLoop input fuel s = o → o ≠ .outOfFuel →
      ∀ k, scanLoop input (fuel + k) s = o := by
  intro fuel
  induction fuel with
  | zero =>
    intro s o h ho
    exact absurd h.symm ho
  | succ fuel ih =>
    intro s o h ho k
    have hk : fuel + 1 + k = (fuel + k) + 1 := by omega
    rw [hk]
    unfold scanLoop
    unfold scanLoop at h
    cases hst : step input s with
    | next s2 =>
      rw [hst] at h
      exact ih s2 o h ho k
    | done o2 =>
      rw [hst] at h
      exact h

theorem scanLoop_fuel_irrel {input : List Nat} {f1 f2 : Nat} {s : State} {o : Outcome}
    (h : scanLoop input f1 s = o) (ho : o ≠ .outOfFuel)
    (h2 : scanLoop input f2 s ≠ .outOfFuel) : scanLoop input f2 s = o := by
  have e1 := scanLoop_mono input f1 s o h ho f2
  have e2 := scanLoop_mono input f2 s _ rfl h2 f1
  rw [Nat.add_comm] at e2
  rw [← e2, e1]

/-- The fuel that `Tokenizer` gives the scan loop is enough: the model of a call
ends by returning or by a panic. -/
theorem Tokenizer_ne_outOfFuel (input : List Nat) : Tokenizer input ≠ .outOfFuel :=
  scanLoop_fuel_enough input _ _ (Nat.zero_le _) (by simp [initialState])

/-- A result of the scan loop under any fuel is the result of `Tokenizer`. -/
theorem Tokenizer_eq_of_scanLoop {input : List Nat} {fuel : Nat} {o : Outcome}
    (h : scanLoop input fuel initialState = o) (ho : o ≠ .outOfFuel) :
    Tokenizer input = o :=
  scanLoop_fuel_irrel h ho (Tokenizer_ne_outOfFuel input)

theorem scanLoop_next {input : List Nat} {s s2 : State} (h : Moved input s s2) (fuel : Nat) :
    scanLoop input (fuel + 1) s = scanLoop input fuel s2 := by
  have hstep := step_of_moved h
  conv_lhs => unfold scanLoop
  rw [hstep]

theorem scanLoop_done {input : List Nat} {s : State} {o : Outcome} (h : Halted input s o)
    (fuel : Nat) : scanLoop input (fuel + 1) s = o := by
  have hstep := step_of_halted h
  conv_lhs => unfold scanLoop
  rw [hstep]

/-- Invariant rule for the scan loop: a property of the state kept by every
iteration that goes round again, and that gives `Post` at every iteration that
ends the call, gives `Post` of the result. -/
theorem scanLoop_invariant (input : List Nat) (Inv : State → Prop) (Post : Outcome → Prop)
    (hmove : ∀ s s2, Inv s → Moved input s s2 → Inv s2)
    (hhalt : ∀ s o, Inv s → Halted input s o → Post o) :
    ∀ (fuel : Nat) (s : State), Inv s → scanLoop input fuel s ≠ .outOfFuel →
      Post (scanLoop input fuel s) := by
  intro fuel
  induction fuel with
  | zero =>
    intro s _ h
    exact absurd rfl h
  | succ fuel ih =>
    intro s hinv h
    cases hst : step input s with
    | next s2 =>
      have hm := step_eq_next_iff.mp hst
      rw [scanLoop_next hm] at h ⊢
      exact ih s2 (hmove s s2 hinv hm) h
    | done o =>
      have hh := step_eq_done_iff.mp hst
      rw [scanLoop_done hh]
      exact hhalt s o hinv hh

/-- Invariant rule for `Tokenizer`. -/
theorem Tokenizer_invariant (input : List Nat) (Inv : State → Prop) (Post : Outcome → Prop)
    (hinit : Inv initialState)
    (hmove : ∀ s s2, Inv s → Moved input s s2 → Inv s2)
    (hhalt : ∀ s o, Inv s → Halted input s o → Post o) : Post (Tokenizer input) :=
  scanLoop_invariant input Inv Post hmove hhalt _ _ hinit (Tokenizer_ne_outOfFuel input)

/-! ## What an iteration appends to the token list -/

theorem Punct.type_cases {c : Nat} {ty : TokenType} {st st2 : Stack} (h : Punct c ty st st2) :
    ty = .LeftBrace ∨ ty = .RightBrace ∨ ty = .LeftBracket ∨ ty = .RightBracket ∨
      ty = .Comma ∨ ty = .Colon := by
  cases h <;> simp

/-- An iteration that goes round again appends at most one token, and never a
terminal one. -/
theorem Moved.tokens_eq {input : List Nat} {s s2 : State} (h : Moved input s s2) :
    s2.tokens = s.tokens ∨
      ∃ t, s2.tokens = s.tokens ++ [t] ∧ t.Typ ≠ .EOF ∧ t.Typ ≠ .ILLEGAL := by
  cases h with
  | space c tail hin hc => exact Or.inl rfl
  | punct c ty st tail hin hp hv =>
    refine Or.inr ⟨_, rfl, ?_⟩
    rcases hp.type_cases with h | h | h | h | h | h <;> simp [h]
  | string body tail hin hb hv => exact Or.inr ⟨_, rfl, by simp⟩
  | number ds tail hin hne hd ht hv => exact Or.inr ⟨_, rfl, by simp⟩
  | boolean c tail hin hc hv => exact Or.inr ⟨_, rfl, by simp⟩
  | null c tail hin hc hv => exact Or.inr ⟨_, rfl, by simp⟩

/-- An iteration that ends the call by returning appends exactly one token: an
ILLEGAL token, or the EOF token when the buffer is used up and the stack is empty. -/
theorem Halted.returned_eq {input : List Nat} {s : State} {o : Outcome}
    (h : Halted input s o) {ts : List Token} (ho : o = .returned ts) :
    ∃ t, ts = s.tokens ++ [t] ∧
      (t.Typ = .ILLEGAL ∨
        (t = ⟨.EOF, []⟩ ∧ s.stack.TokenTypes = [] ∧ input.length ≤ s.curr)) := by
  cases h with
  | atEnd h =>
    unfold finish at ho
    split_ifs at ho with hlen
    · cases ho
      exact ⟨_, rfl, Or.inl rfl⟩
    · cases ho
      exact ⟨_, rfl, Or.inr ⟨rfl, List.length_eq_zero.mp (by omega), h⟩⟩
  | invalid c tail ty hin hs hty hv => cases ho; exact ⟨_, rfl, Or.inl rfl⟩
  | openString body hin hb hv => cases ho; exact ⟨_, rfl, Or.inl rfl⟩
  | badNumber ds tail c hin hne hd hc1 hc2 hv => cases ho; exact ⟨_, rfl, Or.inl rfl⟩
  | trueAtEnd hin => cases ho
  | nullAtEnd hin => cases ho
  | closeEmpty c tail ty hin hc hv hst => cases ho

/-! ## C1: the well-formed document of the specification -/

/-- C1 (evaluation at the failing input): on the document `[true,false,null]`, which is
well formed, `Tokenizer` does not end with an EOF token: the literal `false` is
not recognised and the result is `[`, `true`, `,` followed by the ILLEGAL token
"invalid token sequence". -/
theorem Tokenizer_true_false_null :
    Tokenizer (bytesOf "[true,false,null]") =
      .returned [⟨.LeftBracket, bytesOf "["⟩, ⟨.Boolean, bytesOf "true"⟩,
        ⟨.Comma, bytesOf ","⟩, ⟨.ILLEGAL, bytesOf "invalid token sequence"⟩] := by
  decide

/-! ## C2: exactly one terminal token -/

/-- C2: whenever `Tokenizer` returns, the returned list is not empty, its last token
has type EOF or ILLEGAL, and no token before the last has type EOF or ILLEGAL. -/
theorem Tokenizer_one_terminal (input : List Nat) (ts : List Token)
    (h : Tokenizer input = .returned ts) :
    ts ≠ [] ∧
      (∃ last, ts.getLast? = some last ∧ (last.Typ = .EOF ∨ last.Typ = .ILLEGAL)) ∧
      ∀ t ∈ ts.dropLast, t.Typ ≠ .EOF ∧ t.Typ ≠ .ILLEGAL := by
  have key := Tokenizer_invariant input
    (fun s => ∀ t ∈ s.tokens, t.Typ ≠ .EOF ∧ t.Typ ≠ .ILLEGAL)
    (fun o => ∀ ts, o = .returned ts → ∃ body last, ts = body ++ [last] ∧
      (last.Typ = .EOF ∨ last.Typ = .ILLEGAL) ∧
      ∀ t ∈ body, t.Typ ≠ .EOF ∧ t.Typ ≠ .ILLEGAL)
    (by simp [initialState])
    (by
      intro s s2 hinv hm t ht
      rcases hm.tokens_eq with h2 | ⟨t2, h2, h3⟩
      · rw [h2] at ht
        exact hinv t ht
      · rw [h2] at ht
        rcases List.mem_append.mp ht with h4 | h4
        · exact hinv t h4
        · rw [List.mem_singleton.mp h4]
          exact h3)
    (by
      intro s o hinv hh ts2 ho
      obtain ⟨t, rfl, ht⟩ := hh.returned_eq ho
      refine ⟨s.tokens, t, rfl, ?_, hinv⟩
      rcases ht with h2 | ⟨h2, _⟩
      · exact Or.inr h2
      · exact Or.inl (by rw [h2]))
  obtain ⟨body, last, rfl, hlast, hbody⟩ := key ts h
  refine ⟨by simp, ⟨last, by simp, hlast⟩, ?_⟩
  simpa using hbody

/-- C2 at the input `[1]`. -/
theorem Tokenizer_one_terminal_witness :
    Tokenizer (bytesOf "[1]") =
        .returned [⟨.LeftBracket, [91]⟩, ⟨.Number, [49]⟩, ⟨.RightBracket, [93]⟩, ⟨.EOF, []⟩] ∧
      ([⟨.LeftBracket, [91]⟩, ⟨.Number, [49]⟩, ⟨.RightBracket, [93]⟩, ⟨.EOF, []⟩] ≠
          ([] : List Token) ∧
        (∃ last, [(⟨.LeftBracket, [91]⟩ : Token), ⟨.Number, [49]⟩, ⟨.RightBracket, [93]⟩,
            ⟨.EOF, []⟩].getLast? = some last ∧ (last.Typ = .EOF ∨ last.Typ = .ILLEGAL)) ∧
        ∀ t ∈ [(⟨.LeftBracket, [91]⟩ : Token), ⟨.Number, [49]⟩, ⟨.RightBracket, [93]⟩,
            ⟨.EOF, []⟩].dropLast, t.Typ ≠ .EOF ∧ t.Typ ≠ .ILLEGAL) :=
  ⟨by decide, Tokenizer_one_terminal (bytesOf "[1]") _ (by decide)⟩

/-! ## C3: nesting of the structural tokens -/

theorem nestRun_append (close : TokenType → List TokenType → Option (List TokenType))
    (opened : List TokenType) (a b : List TokenType) :
    nestRun close opened (a ++ b) =
      (nestRun close opened a).bind (fun o => nestRun close o b) := by
  induction a generalizing opened with
  | nil => simp [nestRun]
  | cons ty a ih =>
    simp only [List.cons_append, nestRun]
    cases nestStep close opened ty with
    | none => simp
    | some o => simp [ih]

theorem nestRun_concat {close : TokenType → List TokenType → Option (List TokenType)}
    {opened o : List TokenType} {a : List TokenType} (h : nestRun close opened a = some o)
    (ty : TokenType) : nestRun close opened (a ++ [ty]) = nestStep close o ty := by
  rw [nestRun_append, h]
  simp only [Option.some_bind, nestRun]
  cases nestStep close o ty <;> rfl

/-- The nesting stack of the scan loop is the list of still-open openers of the
tokens emitted so far, under the lenient policy. -/
theorem Moved.nest {input : List Nat} {s s2 : State} (h : Moved input s s2)
    (hinv : nestRun closeLenient [] (s.tokens.map Token.Typ) =
      some s.stack.TokenTypes.reverse) :
    nestRun closeLenient [] (s2.tokens.map Token.Typ) = some s2.stack.TokenTypes.reverse := by
  obtain ⟨curr, tokens, stack, prev⟩ := s
  simp only at hinv
  cases h with
  | space c tail hin hc => exact hinv
  | punct c ty st tail hin hp hv =>
    simp only [List.map_append, List.map_cons, List.map_nil]
    rw [nestRun_concat hinv]
    cases hp <;> simp [nestStep, closeLenient, Stack.Push]
    all_goals assumption
  | string body tail hin hb hv =>
    simp only [List.map_append, List.map_cons, List.map_nil]
    rw [nestRun_concat hinv]; rfl
  | number ds tail hin hne hd ht hv =>
    simp only [List.map_append, List.map_cons, List.map_nil]
    rw [nestRun_concat hinv]; rfl
  | boolean c tail hin hc hv =>
    simp only [List.map_append, List.map_cons, List.map_nil]
    rw [nestRun_concat hinv]; rfl
  | null c tail hin hc hv =>
    simp only [List.map_append, List.map_cons, List.map_nil]
    rw [nestRun_concat hinv]; rfl

/-- C3 as stated fails: on the input `[1},2]` the `}` meets the still-open `[`, is
passed over, and `Tokenizer` returns a list that ends in EOF although its structural
tokens `[`, `}`, `]` are not correctly nested. -/
theorem Tokenizer_mismatch_accepted :
    Tokenizer (bytesOf "[1\x7d,2]") =
        .returned [⟨.LeftBracket, [91]⟩, ⟨.Number, [49]⟩, ⟨.RightBrace, [125]⟩,
          ⟨.Comma, [44]⟩, ⟨.Number, [50]⟩, ⟨.RightBracket, [93]⟩, ⟨.EOF, []⟩] ∧
      endsInEOF [⟨.LeftBracket, [91]⟩, ⟨.Number, [49]⟩, ⟨.RightBrace, [125]⟩,
          ⟨.Comma, [44]⟩, ⟨.Number, [50]⟩, ⟨.RightBracket, [93]⟩, ⟨.EOF, []⟩] = true ∧
      wellNested [⟨.LeftBracket, [91]⟩, ⟨.Number, [49]⟩, ⟨.RightBrace, [125]⟩,
          ⟨.Comma, [44]⟩, ⟨.Number, [50]⟩, ⟨.RightBracket, [93]⟩, ⟨.EOF, []⟩] = false := by
  decide

/-- C3 (amended): whenever `Tokenizer` returns a list ending in an EOF token, the
structural tokens of the list are nested under the lenient policy: read in order,
every `}` whose most recent still-open opener is a `{` closes it, every `]` whose
most recent still-open opener is a `[` closes it, a closer that meets a still-open
opener of the other kind closes nothing and is passed over, no closer comes while
nothing is open, and nothing is left open. -/
theorem Tokenizer_nested_lenient (input : List Nat) (ts : List Token)
    (h : Tokenizer input = .returned ts) (heof : endsInEOF ts = true) :
    wellNestedLenient ts = true := by
  have key := Tokenizer_invariant input
    (fun s => nestRun closeLenient [] (s.tokens.map Token.Typ) =
      some s.stack.TokenTypes.reverse)
    (fun o => ∀ ts, o = .returned ts → endsInEOF ts = true → wellNestedLenient ts = true)
    (by simp [initialState, NewStack, nestRun])
    (fun s s2 hinv hm => hm.nest hinv)
    (by
      intro s o hinv hh ts2 ho he
      obtain ⟨t, rfl, ht⟩ := hh.returned_eq ho
      rcases ht with h2 | ⟨rfl, hst, _⟩
      · simp [endsInEOF, h2] at he
      · rw [hst] at hinv
        simp only [wellNestedLenient, List.map_append, List.map_cons, List.map_nil,
          decide_eq_true_eq]
        rw [nestRun_concat hinv]
        rfl)
  exact key ts h heof

/-- C3 (amended) at the input `[1},2]`. -/
theorem Tokenizer_nested_lenient_witness :
    Tokenizer (bytesOf "[1\x7d,2]") =
        .returned [⟨.LeftBracket, [91]⟩, ⟨.Number, [49]⟩, ⟨.RightBrace, [125]⟩,
          ⟨.Comma, [44]⟩, ⟨.Number, [50]⟩, ⟨.RightBracket, [93]⟩, ⟨.EOF, []⟩] ∧
      wellNestedLenient [⟨.LeftBracket, [91]⟩, ⟨.Number, [49]⟩, ⟨.RightBrace, [125]⟩,
          ⟨.Comma, [44]⟩, ⟨.Number, [50]⟩, ⟨.RightBracket, [93]⟩, ⟨.EOF, []⟩] = true :=
  ⟨by decide, Tokenizer_nested_lenient (bytesOf "[1\x7d,2]") _ (by decide) (by decide)⟩

/-! ## C4 and C5: the unchecked reads -/

/-- C4 (evaluation at the failing input): on the input `1}` the closer `}` passes the
sequence validator with the nesting stack empty, `Stack.Peek` reads index `-1`, and
the call panics instead of returning a token list. -/
theorem Tokenizer_closer_on_empty_stack :
    Tokenizer (bytesOf "1\x7d") = .panicked ∧
      isValidSequences .Number .RightBrace = true ∧ NewStack.Peek = none := by
  decide

/-- C5 (evaluation at the failing inputs): when the buffer ends exactly with `true` or
with `null`, the lookaheads read the position just past the end of the buffer and
panic, and so does `Tokenizer` on `true`, `null` and `[true`. -/
theorem lookahead_reads_past_end :
    isBoolean (bytesOf "true") 0 = none ∧ isNull (bytesOf "null") 0 = none ∧
      isBoolean (bytesOf "[true") 1 = none ∧
      Tokenizer (bytesOf "true") = .panicked ∧ Tokenizer (bytesOf "null") = .panicked ∧
      Tokenizer (bytesOf "[true") = .panicked := by
  decide

/-! ## C9 and C10: a malformed number, a string literal -/

/-- C9: on every input that begins with a non-empty run of ASCII digits followed by a
byte that is neither a digit nor one of `,` (44), `}` (125), `]` (93), whatever
comes after, `Tokenizer` returns exactly one token, the ILLEGAL token "Invalid number
format". -/
theorem Tokenizer_malformed_number (ds rest : List Nat) (c : Nat) (hne : ds ≠ [])
    (hd : ∀ d ∈ ds, 48 ≤ d ∧ d ≤ 57) (hc : ¬ (48 ≤ c ∧ c ≤ 57))
    (hterm : c ≠ 44 ∧ c ≠ 125 ∧ c ≠ 93) :
    Tokenizer (ds ++ c :: rest) =
      .returned [⟨.ILLEGAL, bytesOf "Invalid number format"⟩] := by
  have hd2 : ∀ d ∈ ds, isDigit d = true := by
    intro d hmem
    simpa [isDigit] using hd d hmem
  have hc1 : isDigit c = false := by
    cases h : isDigit c
    · rfl
    · exact absurd (by simpa [isDigit] using h) hc
  have hc2 : isCloser c = false := by
    cases h : isCloser c
    · rfl
    · rw [isCloser_iff] at h
      rcases h with h | h | h
      · exact absurd h hterm.1
      · exact absurd h hterm.2.1
      · exact absurd h hterm.2.2
  have hh : Halted (ds ++ c :: rest) initialState
      (.returned (initialState.tokens ++ [⟨.ILLEGAL, msgInvalidNumber⟩])) :=
    .badNumber ds rest c (by simp [initialState]) hne hd2 hc1 hc2 (by decide)
  exact Tokenizer_eq_of_scanLoop (scanLoop_done hh 0) (by simp)

/-- C9 at the input `123x`. -/
theorem Tokenizer_malformed_number_witness :
    Tokenizer ([49, 50, 51] ++ 120 :: []) =
      .returned [⟨.ILLEGAL, bytesOf "Invalid number format"⟩] :=
  Tokenizer_malformed_number [49, 50, 51] [] 120 (by decide) (by decide) (by decide)
    (by decide)

/-- C10: for every byte string `body` without the byte `"` (34), `Tokenizer` on
`"` `body` `"` returns exactly the String token whose value is `body`, unchanged,
followed by the EOF token. -/
theorem Tokenizer_string (body : List Nat) (hb : 34 ∉ body) :
    Tokenizer ([34] ++ body ++ [34]) = .returned [⟨.String, body⟩, ⟨.EOF, []⟩] := by
  have hm : Moved ([34] ++ body ++ [34]) initialState
      ⟨initialState.curr + 1 + body.length + 1,
        initialState.tokens ++ [⟨.String, body⟩], initialState.stack, .Quote⟩ :=
    .string body [] (by simp [initialState]) hb (by decide)
  have hh : Halted ([34] ++ body ++ [34])
      ⟨initialState.curr + 1 + body.length + 1,
        initialState.tokens ++ [⟨.String, body⟩], initialState.stack, .Quote⟩ _ :=
    .atEnd (by simp [initialState]; omega)
  have hrun := (scanLoop_next hm 1).trans (scanLoop_done hh 0)
  exact Tokenizer_eq_of_scanLoop hrun (by simp [finish])

/-- C10 at the body `a\ b` (a backslash and a space inside) and at the empty body. -/
theorem Tokenizer_string_witness :
    Tokenizer ([34] ++ [97, 92, 32, 98] ++ [34]) =
        .returned [⟨.String, [97, 92, 32, 98]⟩, ⟨.EOF, []⟩] ∧
      Tokenizer ([34] ++ [] ++ [34]) = .returned [⟨.String, []⟩, ⟨.EOF, []⟩] :=
  ⟨Tokenizer_string [97, 92, 32, 98] (by decide), Tokenizer_string [] (by decide)⟩

/-! ## C7: an object with one key and a number -/

/-- C7: for every key `k` without the byte `"` (34) and every non-empty string `d` of
ASCII digits, `Tokenizer` on `{"` `k` `":` `d` `}` returns exactly LeftBrace `{`,
String `k`, Colon `:`, Number `d`, RightBrace `}`, EOF. -/
theorem Tokenizer_object (k d : List Nat) (hk : 34 ∉ k) (hne : d ≠ [])
    (hd : ∀ x ∈ d, 48 ≤ x ∧ x ≤ 57) :
    Tokenizer ([123, 34] ++ k ++ [34, 58] ++ d ++ [125]) =
      .returned [⟨.LeftBrace, [123]⟩, ⟨.String, k⟩, ⟨.Colon, [58]⟩, ⟨.Number, d⟩,
        ⟨.RightBrace, [125]⟩, ⟨.EOF, []⟩] := by
  have hd2 : ∀ x ∈ d, isDigit x = true := by
    intro x hmem
    simpa [isDigit] using hd x hmem
  have hlen : 0 < d.length := List.length_pos.mpr hne
  generalize hinput : [123, 34] ++ k ++ [34, 58] ++ d ++ [125] = input
  have h0 : input.drop 0 = [123] ++ (34 :: (k ++ 34 :: ([58] ++ (d ++ [125])))) := by
    simp [← hinput]
  have h1 : input.drop 1 = 34 :: (k ++ 34 :: ([58] ++ (d ++ [125]))) :=
    drop_add_of_drop_eq h0
  have h2 : input.drop (1 + 1 + k.length + 1) = [58] ++ (d ++ [125]) := by
    have := drop_add_of_drop_eq (a := 34 :: (k ++ [34])) (t := [58] ++ (d ++ [125]))
      (i := 1) (by simpa using h1)
    rw [← this]
    congr 1
    simp
    omega
  have h3 : input.drop (1 + 1 + k.length + 1 + 1) = d ++ [125] := drop_add_of_drop_eq h2
  have h4 : input.drop (1 + 1 + k.length + 1 + 1 + d.length) = [125] ++ [] :=
    drop_add_of_drop_eq h3
  have hl : input.length = 1 + 1 + k.length + 1 + 1 + d.length + 1 := by
    have := length_of_drop_eq h4 (by simp)
    simpa using this
  have m1 : Moved input initialState ⟨1, [⟨.LeftBrace, [123]⟩], ⟨[.LeftBrace]⟩, .LeftBrace⟩ :=
    .punct 123 .LeftBrace _ _ h0 (.leftBrace _) (by decide)
  have m2 := @Moved.string input
    ⟨1, [⟨.LeftBrace, [123]⟩], ⟨[.LeftBrace]⟩, .LeftBrace⟩ k _ h1 hk rfl
  have m3 := @Moved.punct input
    ⟨1 + 1 + k.length + 1, [⟨.LeftBrace, [123]⟩] ++ [⟨.String, k⟩], ⟨[.LeftBrace]⟩, .Quote⟩
    58 .Colon _ _ h2 (.colon _) rfl
  have m4 := @Moved.number input
    ⟨1 + 1 + k.length + 1 + 1,
      [⟨.LeftBrace, [123]⟩] ++ [⟨.String, k⟩] ++ [⟨.Colon, [58]⟩], ⟨[.LeftBrace]⟩, .Colon⟩
    d [125] h3 hne hd2 (by simp [isCloser]) rfl
  have m5 := @Moved.punct input
    ⟨1 + 1 + k.length + 1 + 1 + d.length,
      [⟨.LeftBrace, [123]⟩] ++ [⟨.String, k⟩] ++ [⟨.Colon, [58]⟩] ++ [⟨.Number, d⟩],
      ⟨[] ++ [.LeftBrace]⟩, .Number⟩ 125 .RightBrace _ _ h4 (.rightBracePop []) rfl
  have e6 := @Halted.atEnd input
    ⟨1 + 1 + k.length + 1 + 1 + d.length + 1,
      [⟨.LeftBrace, [123]⟩] ++ [⟨.String, k⟩] ++ [⟨.Colon, [58]⟩] ++ [⟨.Number, d⟩] ++
        [⟨.RightBrace, [125]⟩], ⟨[]⟩, .RightBrace⟩ (by simp [hl])
  have hrun := (scanLoop_next m1 5).trans ((scanLoop_next m2 4).trans
    ((scanLoop_next m3 3).trans ((scanLoop_next m4 2).trans
      ((scanLoop_next m5 1).trans (scanLoop_done e6 0)))))
  exact Tokenizer_eq_of_scanLoop hrun (by simp [finish])

/-- C7 at the input `{"a":1}` (key `a`, digits `1`). -/
theorem Tokenizer_object_witness :
    Tokenizer ([123, 34] ++ [97] ++ [34, 58] ++ [49] ++ [125]) =
      .returned [⟨.LeftBrace, [123]⟩, ⟨.String, [97]⟩, ⟨.Colon, [58]⟩, ⟨.Number, [49]⟩,
        ⟨.RightBrace, [125]⟩, ⟨.EOF, []⟩] :=
  Tokenizer_object [97] [49] (by decide) (by decide) (by decide)

/-! ## C8: round trip -/

theorem render_concat (ts : List Token) (t : Token) :
    render (ts ++ [t]) = render ts ++ t.lexeme := by
  induction ts with
  | nil => simp [render]
  | cons x ts ih => simp [render, ih]

theorem stripOutside_plain {l : List Nat}
    (h : ∀ x ∈ l, x ≠ 34 ∧ unicodeIsSpace x = false) (tail : List Nat) :
    stripOutside unicodeIsSpace false (l ++ tail) = l ++ stripOutside unicodeIsSpace false tail := by
  induction l with
  | nil => rfl
  | cons x l ih =>
    have hx := h x (by simp)
    have ih2 := ih (fun y hy => h y (by simp [hy]))
    simp [stripOutside, hx.1, hx.2, ih2]

theorem stripOutside_body {body : List Nat} (h : 34 ∉ body) (tail : List Nat) :
    stripOutside unicodeIsSpace true (body ++ 34 :: tail) = body ++ 34 :: stripOutside unicodeIsSpace false tail := by
  induction body with
  | nil => simp [stripOutside]
  | cons x l ih =>
    have hx : x ≠ 34 := fun e => h (by simp [e])
    have ih2 := ih (fun e => h (by simp [e]))
    simp [stripOutside, hx, ih2]

theorem Punct.plain {c : Nat} {ty : TokenType} {st st2 : Stack} (h : Punct c ty st st2) :
    c ≠ 34 ∧ unicodeIsSpace c = false ∧ ty ≠ .String := by
  cases h <;> simp [unicodeIsSpace]

theorem digit_plain {d : Nat} (h : isDigit d = true) :
    d ≠ 34 ∧ unicodeIsSpace d = false := by
  refine ⟨?_, digit_not_space h⟩
  simp [isDigit] at h
  omega

/-- An iteration that goes round again emits the significant bytes it has read. -/
theorem Moved.strip {input : List Nat} {s s2 : State} (h : Moved input s s2) :
    render s2.tokens ++ stripOutside unicodeIsSpace false (input.drop s2.curr) =
      render s.tokens ++ stripOutside unicodeIsSpace false (input.drop s.curr) := by
  cases h with
  | space c tail hin hc =>
    have hd : input.drop (s.curr + 1) = tail := drop_add_of_drop_eq (a := [c]) hin
    have hc2 : c ≠ 34 := by
      rw [unicodeIsSpace_iff] at hc
      omega
    simp [hd, hin, stripOutside, hc, hc2]
  | punct c ty st tail hin hp hv =>
    have hd : input.drop (s.curr + 1) = tail := drop_add_of_drop_eq (a := [c]) hin
    obtain ⟨h1, h2, h3⟩ := hp.plain
    simp [hd, hin, stripOutside, h1, h2, render_concat, Token.lexeme, h3]
  | string body tail hin hb hv =>
    have hd : input.drop (s.curr + 1 + body.length + 1) = tail := by
      have := drop_add_of_drop_eq (a := 34 :: (body ++ [34])) (t := tail) (i := s.curr)
        (by simpa using hin)
      rw [← this]
      congr 1
      simp
      omega
    simp [hd, hin, stripOutside, render_concat, Token.lexeme, stripOutside_body hb]
  | number ds tail hin hne hd ht hv =>
    have hdr : input.drop (s.curr + ds.length) = tail := drop_add_of_drop_eq hin
    simp [hdr, hin, render_concat, Token.lexeme,
      stripOutside_plain (fun x hx => digit_plain (hd x hx))]
  | boolean c tail hin hc hv =>
    have hdr : input.drop (s.curr + 4) = c :: tail :=
      drop_add_of_drop_eq (a := trueLiteral) hin
    have hp : ∀ x ∈ trueLiteral, x ≠ 34 ∧ unicodeIsSpace x = false := by decide
    simp [hdr, hin, render_concat, Token.lexeme, stripOutside_plain hp]
  | null c tail hin hc hv =>
    have hdr : input.drop (s.curr + 4) = c :: tail :=
      drop_add_of_drop_eq (a := nullLiteral) hin
    have hp : ∀ x ∈ nullLiteral, x ≠ 34 ∧ unicodeIsSpace x = false := by decide
    simp [hdr, hin, render_concat, Token.lexeme, stripOutside_plain hp]

/-- C8 as stated fails: on the input `[`, vertical tab (11), `1]` the vertical tab is
skipped by the scan loop (`unicode.IsSpace`), the result ends in EOF and its tokens
concatenate to `[1]`, while the input with the whitespace bytes of the specification
(space, tab, newline, carriage return) removed outside string literals is still
`[`, vertical tab, `1]`. -/
theorem Tokenizer_round_trip_vertical_tab :
    Tokenizer [91, 11, 49, 93] =
        .returned [⟨.LeftBracket, [91]⟩, ⟨.Number, [49]⟩, ⟨.RightBracket, [93]⟩,
          ⟨.EOF, []⟩] ∧
      endsInEOF [⟨.LeftBracket, [91]⟩, ⟨.Number, [49]⟩, ⟨.RightBracket, [93]⟩,
          ⟨.EOF, []⟩] = true ∧
      render [⟨.LeftBracket, [91]⟩, ⟨.Number, [49]⟩, ⟨.RightBracket, [93]⟩, ⟨.EOF, []⟩] =
        [91, 49, 93] ∧
      stripOutside isSpecWhitespace false [91, 11, 49, 93] = [91, 11, 49, 93] ∧
      render [⟨.LeftBracket, [91]⟩, ⟨.Number, [49]⟩, ⟨.RightBracket, [93]⟩, ⟨.EOF, []⟩] ≠
        stripOutside isSpecWhitespace false [91, 11, 49, 93] := by
  decide

/-- C8 (amended): whenever `Tokenizer` returns a list ending in an EOF token,
concatenating in order the `Val` fields of all tokens, each String token's `Val` put
back between two `"` bytes, yields the input with the bytes that `unicode.IsSpace`
accepts (tab, line feed, vertical tab, form feed, carriage return, space, 0x85 and
0xA0) and that lie outside string literals removed. -/
theorem Tokenizer_round_trip (input : List Nat) (ts : List Token)
    (h : Tokenizer input = .returned ts) (heof : endsInEOF ts = true) :
    render ts = stripOutside unicodeIsSpace false input := by
  have key := Tokenizer_invariant input
    (fun s => render s.tokens ++ stripOutside unicodeIsSpace false (input.drop s.curr) =
      stripOutside unicodeIsSpace false input)
    (fun o => ∀ ts, o = .returned ts → endsInEOF ts = true →
      render ts = stripOutside unicodeIsSpace false input)
    (by simp [initialState, render])
    (fun s s2 hinv hm => hm.strip.trans hinv)
    (by
      intro s o hinv hh ts2 ho he
      obtain ⟨t, rfl, ht⟩ := hh.returned_eq ho
      rcases ht with h2 | ⟨rfl, _, hlen⟩
      · simp [endsInEOF, h2] at he
      · rw [List.drop_eq_nil_iff.mpr hlen] at hinv
        simpa [render_concat, Token.lexeme, stripOutside] using hinv)
  exact key ts h heof

/-- C8 (amended) at the input `[`, vertical tab, `"a b" ,`, tab, `1,`, line feed,
`null]`: the vertical tab is removed with the other white space outside the string,
the space inside the string is kept. -/
theorem Tokenizer_round_trip_witness :
    Tokenizer (bytesOf "[\x0b\"a b\" ,\t1,\nnull]") =
        .returned [⟨.LeftBracket, [91]⟩, ⟨.String, bytesOf "a b"⟩, ⟨.Comma, [44]⟩,
          ⟨.Number, [49]⟩, ⟨.Comma, [44]⟩, ⟨.Null, bytesOf "null"⟩,
          ⟨.RightBracket, [93]⟩, ⟨.EOF, []⟩] ∧
      render [⟨.LeftBracket, [91]⟩, ⟨.String, bytesOf "a b"⟩, ⟨.Comma, [44]⟩,
          ⟨.Number, [49]⟩, ⟨.Comma, [44]⟩, ⟨.Null, bytesOf "null"⟩,
          ⟨.RightBracket, [93]⟩, ⟨.EOF, []⟩] =
        stripOutside unicodeIsSpace false (bytesOf "[\x0b\"a b\" ,\t1,\nnull]") ∧
      stripOutside unicodeIsSpace false (bytesOf "[\x0b\"a b\" ,\t1,\nnull]") =
        bytesOf "[\"a b\",1,null]" :=
  ⟨by decide,
    Tokenizer_round_trip (bytesOf "[\x0b\"a b\" ,\t1,\nnull]") _ (by decide) (by decide),
    by decide⟩

/-! ## C6: white space between tokens -/

theorem drop_shift (p rest : List Nat) (i : Nat) :
    (p ++ rest).drop (p.length + i) = rest.drop i := by
  simp [List.drop_append]

theorem determineTokenType_shift (c : Nat) (p rest : List Nat) (i : Nat) :
    determineTokenType c (p ++ rest) (p.length + i) = determineTokenType c rest i := by
  unfold determineTokenType
  rw [isBoolean_eq, isNull_eq, isBoolean_eq rest, isNull_eq rest, drop_shift]

/-- The scan does not depend on the bytes before the cursor: an iteration on `rest`
is the same iteration on `p ++ rest`, the cursor moved by `len(p)`. -/
theorem moved_shift (p : List Nat) {rest : List Nat} {s s2 : State} (h : Moved rest s s2) :
    Moved (p ++ rest) ⟨p.length + s.curr, s.tokens, s.stack, s.prevTokenType⟩
      ⟨p.length + s2.curr, s2.tokens, s2.stack, s2.prevTokenType⟩ := by
  cases h with
  | space c tail hin hc =>
    have := @Moved.space (p ++ rest) ⟨p.length + s.curr, s.tokens, s.stack, s.prevTokenType⟩
      c tail (by rw [drop_shift]; exact hin) hc
    simpa [Nat.add_assoc] using this
  | punct c ty st tail hin hp hv =>
    have := @Moved.punct (p ++ rest) ⟨p.length + s.curr, s.tokens, s.stack, s.prevTokenType⟩
      c ty st tail (by rw [drop_shift]; exact hin) hp hv
    simpa [Nat.add_assoc] using this
  | string body tail hin hb hv =>
    have := @Moved.string (p ++ rest) ⟨p.length + s.curr, s.tokens, s.stack, s.prevTokenType⟩
      body tail (by rw [drop_shift]; exact hin) hb hv
    simpa [Nat.add_assoc] using this
  | number ds tail hin hne hd ht hv =>
    have := @Moved.number (p ++ rest) ⟨p.length + s.curr, s.tokens, s.stack, s.prevTokenType⟩
      ds tail (by rw [drop_shift]; exact hin) hne hd ht hv
    simpa [Nat.add_assoc] using this
  | boolean c tail hin hc hv =>
    have := @Moved.boolean (p ++ rest) ⟨p.length + s.curr, s.tokens, s.stack, s.prevTokenType⟩
      c tail (by rw [drop_shift]; exact hin) hc hv
    simpa [Nat.add_assoc] using this
  | null c tail hin hc hv =>
    have := @Moved.null (p ++ rest) ⟨p.length + s.curr, s.tokens, s.stack, s.prevTokenType⟩
      c tail (by rw [drop_shift]; exact hin) hc hv
    simpa [Nat.add_assoc] using this

theorem halted_shift (p : List Nat) {rest : List Nat} {s : State} {o : Outcome}
    (h : Halted rest s o) :
    Halted (p ++ rest) ⟨p.length + s.curr, s.tokens, s.stack, s.prevTokenType⟩ o := by
  cases h with
  | atEnd h =>
    exact @Halted.atEnd (p ++ rest) ⟨p.length + s.curr, s.tokens, s.stack, s.prevTokenType⟩
      (by simp; omega)
  | invalid c tail ty hin hs hty hv =>
    exact @Halted.invalid (p ++ rest)
      ⟨p.length + s.curr, s.tokens, s.stack, s.prevTokenType⟩ c tail ty
      (by rw [drop_shift]; exact hin) hs (by rw [determineTokenType_shift]; exact hty) hv
  | openString body hin hb hv =>
    exact @Halted.openString (p ++ rest)
      ⟨p.length + s.curr, s.tokens, s.stack, s.prevTokenType⟩ body
      (by rw [drop_shift]; exact hin) hb hv
  | badNumber ds tail c hin hne hd hc1 hc2 hv =>
    exact @Halted.badNumber (p ++ rest)
      ⟨p.length + s.curr, s.tokens, s.stack, s.prevTokenType⟩ ds tail c
      (by rw [drop_shift]; exact hin) hne hd hc1 hc2 hv
  | trueAtEnd hin =>
    exact @Halted.trueAtEnd (p ++ rest)
      ⟨p.length + s.curr, s.tokens, s.stack, s.prevTokenType⟩ (by rw [drop_shift]; exact hin)
  | nullAtEnd hin =>
    exact @Halted.nullAtEnd (p ++ rest)
      ⟨p.length + s.curr, s.tokens, s.stack, s.prevTokenType⟩ (by rw [drop_shift]; exact hin)
  | closeEmpty c tail ty hin hc hv hst =>
    exact @Halted.closeEmpty (p ++ rest)
      ⟨p.length + s.curr, s.tokens, s.stack, s.prevTokenType⟩ c tail ty
      (by rw [drop_shift]; exact hin) hc hv hst

theorem scanLoop_shift (p rest : List Nat) :
    ∀ (fuel : Nat) (s : State),
      scanLoop (p ++ rest) fuel ⟨p.length + s.curr, s.tokens, s.stack, s.prevTokenType⟩ =
        scanLoop rest fuel s := by
  intro fuel
  induction fuel with
  | zero => intro s; rfl
  | succ fuel ih =>
    intro s
    rcases step_total rest s with ⟨s2, hm⟩ | ⟨o, hh⟩
    · rw [scanLoop_next hm, scanLoop_next (moved_shift p hm)]
      exact ih s2
    · rw [scanLoop_done hh, scanLoop_done (halted_shift p hh)]

theorem drop_insert {pre post : List Nat} {i : Nat} {a t : List Nat}
    (hin : (pre ++ post).drop i = a ++ t) (hle : i + a.length ≤ pre.length)
    (ws : List Nat) :
    ∃ mid, t = mid ++ post ∧
      (pre ++ (ws ++ post)).drop i = a ++ (mid ++ (ws ++ post)) ∧
      mid.length = pre.length - (i + a.length) := by
  have hi : i ≤ pre.length := by omega
  rw [List.drop_append_of_le_length hi] at hin
  have hlen : a.length ≤ (pre.drop i).length := by
    rw [List.length_drop]
    omega
  have htake : (pre.drop i).take a.length = a := by
    have h2 := congrArg (List.take a.length) hin
    rw [List.take_append_of_le_length hlen] at h2
    simpa using h2
  have hsplit : pre.drop i = a ++ (pre.drop i).drop a.length := by
    conv_lhs => rw [← List.take_append_drop a.length (pre.drop i), htake]
  refine ⟨(pre.drop i).drop a.length, ?_, ?_, ?_⟩
  · rw [hsplit, List.append_assoc] at hin
    exact (List.append_cancel_left hin).symm
  · rw [List.drop_append_of_le_length hi]
    conv_lhs => rw [hsplit]
    simp
  · rw [List.length_drop, List.length_drop]
    omega

/-- An iteration that stays inside `pre`, and does not end a number, `true` or
`null` exactly at the end of `pre`, is the same iteration when `ws` is inserted
after `pre`. -/
theorem moved_insert {pre post : List Nat} (ws : List Nat) {s s2 : State}
    (h : Moved (pre ++ post) s s2) (hle : s2.curr ≤ pre.length)
    (hprev : s2.curr = pre.length → s2.prevTokenType ≠ .Number ∧
      s2.prevTokenType ≠ .Boolean ∧ s2.prevTokenType ≠ .Null) :
    Moved (pre ++ (ws ++ post)) s s2 := by
  cases h with
  | space c tail hin hc =>
    obtain ⟨mid, _, h2, _⟩ := drop_insert (a := [c]) hin (by simpa using hle) ws
    exact .space c _ h2 hc
  | punct c ty st tail hin hp hv =>
    obtain ⟨mid, _, h2, _⟩ := drop_insert (a := [c]) hin (by simpa using hle) ws
    exact .punct c ty st _ h2 hp hv
  | string body tail hin hb hv =>
    obtain ⟨mid, _, h2, _⟩ := drop_insert (a := 34 :: (body ++ [34])) (t := tail)
      (by simpa using hin) (by simp at hle ⊢; omega) ws
    exact .string body _ (by simpa using h2) hb hv
  | number ds tail hin hne hd ht hv =>
    obtain ⟨mid, h1, h2, h3⟩ := drop_insert hin hle ws
    refine .number ds _ h2 hne hd ?_ hv
    cases mid with
    | nil =>
      have : s.curr + ds.length = pre.length := by
        simp at h3 hle
        omega
      exact absurd rfl (hprev this).1
    | cons x mid =>
      rw [h1] at ht
      simpa using ht
  | boolean c tail hin hc hv =>
    have hlt : s.curr + 4 < pre.length := by
      rcases Nat.lt_or_ge (s.curr + 4) pre.length with h | h
      · exact h
      · exact absurd rfl (hprev (Nat.le_antisymm hle h)).2.1
    obtain ⟨mid, _, h2, _⟩ := drop_insert (a := trueLiteral ++ [c]) (t := tail)
      (by simpa using hin) (by simp [trueLiteral]; omega) ws
    exact .boolean c _ (by simpa using h2) hc hv
  | null c tail hin hc hv =>
    have hlt : s.curr + 4 < pre.length := by
      rcases Nat.lt_or_ge (s.curr + 4) pre.length with h | h
      · exact h
      · exact absurd rfl (hprev (Nat.le_antisymm hle h)).2.2
    obtain ⟨mid, _, h2, _⟩ := drop_insert (a := nullLiteral ++ [c]) (t := tail)
      (by simpa using hin) (by simp [nullLiteral]; omega) ws
    exact .null c _ (by simpa using h2) hc hv

theorem stateAfter_succ {input : List Nat} {n : Nat} {s2 : State}
    (h : stateAfter input (n + 1) = some s2) :
    ∃ s1, stateAfter input n = some s1 ∧ Moved input s1 s2 := by
  unfold stateAfter at h
  cases h1 : stateAfter input n with
  | none =>
    rw [h1] at h
    simp only at h
    exact Option.noConfusion h
  | some s1 =>
    rw [h1] at h
    simp only at h
    cases h2 : step input s1 with
    | done o =>
      rw [h2] at h
      simp only at h
      exact Option.noConfusion h
    | next s3 =>
      rw [h2] at h
      simp only [Option.some.injEq] at h
      subst h
      exact ⟨s1, rfl, step_eq_next_iff.mp h2⟩

theorem stateAfter_of_moved {input : List Nat} {n : Nat} {s1 s2 : State}
    (h1 : stateAfter input n = some s1) (h2 : Moved input s1 s2) :
    stateAfter input (n + 1) = some s2 := by
  conv_lhs => unfold stateAfter
  rw [h1]
  simp only
  rw [step_of_moved h2]

theorem stateAfter_curr_le (input : List Nat) :
    ∀ (n : Nat) (s : State), stateAfter input n = some s → s.curr ≤ input.length := by
  intro n
  induction n with
  | zero =>
    intro s h
    cases h
    exact Nat.zero_le _
  | succ n ih =>
    intro s h
    obtain ⟨s1, _, hm⟩ := stateAfter_succ h
    exact hm.curr_lt.2

/-- The scan loop run from the start passes through the states of `stateAfter`. -/
theorem scanLoop_stateAfter (input : List Nat) :
    ∀ (n : Nat) (s : State), stateAfter input n = some s →
      ∀ fuel, scanLoop input (n + fuel) initialState = scanLoop input fuel s := by
  intro n
  induction n with
  | zero =>
    intro s h fuel
    cases h
    rw [Nat.zero_add]
  | succ n ih =>
    intro s h fuel
    obtain ⟨s1, h1, hm⟩ := stateAfter_succ h
    have e : n + 1 + fuel = n + (fuel + 1) := by omega
    rw [e, ih s1 h1 (fuel + 1), scanLoop_next hm]

/-- The states reached inside `pre` are reached with `ws` inserted after `pre`. -/
theorem stateAfter_insert (pre post ws : List Nat) :
    ∀ (n : Nat) (s : State), stateAfter (pre ++ post) n = some s → s.curr ≤ pre.length →
      (s.curr = pre.length → s.prevTokenType ≠ .Number ∧ s.prevTokenType ≠ .Boolean ∧
        s.prevTokenType ≠ .Null) →
      stateAfter (pre ++ (ws ++ post)) n = some s := by
  intro n
  induction n with
  | zero =>
    intro s h _ _
    cases h
    rfl
  | succ n ih =>
    intro s h hle hprev
    obtain ⟨s1, h1, hm⟩ := stateAfter_succ h
    have hlt := hm.curr_lt.1
    have h2 := ih s1 h1 (by omega) (fun e => by omega)
    exact stateAfter_of_moved h2 (moved_insert ws hm hle hprev)

theorem scanLoop_skip_spaces (ws : List Nat) :
    ∀ (pre post : List Nat) (fuel : Nat) (tokens : List Token) (stack : Stack)
      (prev : TokenType), (∀ b ∈ ws, unicodeIsSpace b = true) →
      scanLoop (pre ++ (ws ++ post)) (ws.length + fuel) ⟨pre.length, tokens, stack, prev⟩ =
        scanLoop (pre ++ (ws ++ post)) fuel ⟨pre.length + ws.length, tokens, stack, prev⟩ := by
  induction ws with
  | nil =>
    intro pre post fuel tokens stack prev _
    simp
  | cons w ws ih =>
    intro pre post fuel tokens stack prev hws
    have hm := @Moved.space (pre ++ (w :: ws ++ post)) ⟨pre.length, tokens, stack, prev⟩ w
      (ws ++ post) (by simp) (hws w (by simp))
    have e : (w :: ws).length + fuel = (ws.length + fuel) + 1 := by
      simp
      omega
    rw [e, scanLoop_next hm]
    have h2 := ih (pre ++ [w]) post fuel tokens stack prev (fun b hb => hws b (by simp [hb]))
    simp only [List.append_assoc, List.singleton_append, List.length_append,
      List.length_singleton] at h2
    simp only [List.cons_append, List.length_cons]
    rw [h2]
    congr 2
    omega

/-- C6 as stated fails: the claim's own example `[1 ]` does not give the tokens of
`[1]`. A space after the digit run is not one of `,` `}` `]`, and lines 110-112
return the ILLEGAL token "Invalid number format". In the same way a space after
`true` or `null` makes the lookahead fail: `[true ]` and `[null ]` do not give the
tokens of `[true]` and `[null]`. -/
theorem Tokenizer_space_after_number :
    Tokenizer (bytesOf "[1 ]") =
        .returned [⟨.LeftBracket, [91]⟩, ⟨.ILLEGAL, bytesOf "Invalid number format"⟩] ∧
      Tokenizer (bytesOf "[1]") =
        .returned [⟨.LeftBracket, [91]⟩, ⟨.Number, [49]⟩, ⟨.RightBracket, [93]⟩,
          ⟨.EOF, []⟩] ∧
      Tokenizer (bytesOf "[1 ]") ≠ Tokenizer (bytesOf "[1]") ∧
      Tokenizer (bytesOf "[true ]") ≠ Tokenizer (bytesOf "[true]") ∧
      Tokenizer (bytesOf "[null ]") ≠ Tokenizer (bytesOf "[null]") := by
  decide

/-- C6 (amended): white space at a token boundary does not change the result, unless
the token just before it is a Number, Boolean or Null token. For every input
`pre ++ post` whose scan reaches the position `len(pre)` at the head of the loop
(before the first lexeme, between the lexemes of two adjacent tokens, or after the
last one) with a previous token type other than Number, Boolean and Null, and every
run `ws` of the bytes space (32), tab (9), line feed (10), carriage return (13),
`Tokenizer` gives on `pre ++ ws ++ post` the result it gives on `pre ++ post`. -/
theorem Tokenizer_whitespace_insert (pre post ws : List Nat) (n : Nat) (s : State)
    (hws : ∀ b ∈ ws, b = 32 ∨ b = 9 ∨ b = 10 ∨ b = 13)
    (hs : stateAfter (pre ++ post) n = some s) (hcurr : s.curr = pre.length)
    (hprev : s.prevTokenType ≠ .Number ∧ s.prevTokenType ≠ .Boolean ∧
      s.prevTokenType ≠ .Null) :
    Tokenizer (pre ++ ws ++ post) = Tokenizer (pre ++ post) := by
  obtain ⟨curr, tokens, stack, prev⟩ := s
  simp only at hcurr hprev
  subst hcurr
  have hsp : ∀ b ∈ ws, unicodeIsSpace b = true := by
    intro b hb
    rw [unicodeIsSpace_iff]
    rcases hws b hb with h | h | h | h <;> simp [h]
  have ho : scanLoop post (post.length + 1) ⟨0, tokens, stack, prev⟩ ≠ .outOfFuel :=
    scanLoop_fuel_enough post _ _ (Nat.zero_le _) (by simp)
  have hA : scanLoop (pre ++ post) (n + (post.length + 1)) initialState =
      scanLoop post (post.length + 1) ⟨0, tokens, stack, prev⟩ := by
    rw [scanLoop_stateAfter _ n _ hs]
    exact scanLoop_shift pre post (post.length + 1) ⟨0, tokens, stack, prev⟩
  have hs2 := stateAfter_insert pre post ws n _ hs (Nat.le_refl _) (fun _ => hprev)
  have hB : scanLoop (pre ++ (ws ++ post)) (n + (ws.length + (post.length + 1)))
      initialState = scanLoop post (post.length + 1) ⟨0, tokens, stack, prev⟩ := by
    rw [scanLoop_stateAfter _ n _ hs2, scanLoop_skip_spaces ws pre post _ _ _ _ hsp]
    have h3 := scanLoop_shift (pre ++ ws) post (post.length + 1) ⟨0, tokens, stack, prev⟩
    simpa using h3
  rw [List.append_assoc, Tokenizer_eq_of_scanLoop hA ho, Tokenizer_eq_of_scanLoop hB ho]

/-- C6 (amended) at the inputs `["a",1]` and `["a"` space tab line-feed
carriage-return `,1]`: the run is inserted after the string. -/
theorem Tokenizer_whitespace_insert_witness :
    stateAfter (bytesOf "[\"a\"" ++ bytesOf ",1]") 2 =
        some ⟨4, [⟨.LeftBracket, [91]⟩, ⟨.String, [97]⟩], ⟨[.LeftBracket]⟩, .Quote⟩ ∧
      Tokenizer (bytesOf "[\"a\"" ++ [32, 9, 10, 13] ++ bytesOf ",1]") =
        Tokenizer (bytesOf "[\"a\"" ++ bytesOf ",1]") ∧
      Tokenizer (bytesOf "[\"a\"" ++ bytesOf ",1]") =
        .returned [⟨.LeftBracket, [91]⟩, ⟨.String, [97]⟩, ⟨.Comma, [44]⟩, ⟨.Number, [49]⟩,
          ⟨.RightBracket, [93]⟩, ⟨.EOF, []⟩] :=
  ⟨by decide,
    Tokenizer_whitespace_insert (bytesOf "[\"a\"") (bytesOf ",1]") [32, 9, 10, 13] 2
      ⟨4, [⟨.LeftBracket, [91]⟩, ⟨.String, [97]⟩], ⟨[.LeftBracket]⟩, .Quote⟩
      (by decide) (by decide) (by decide) (by decide),
    by decide⟩

/-! ## C11 and C13: an unterminated string, an invalid sequence -/

/-- C11: for every byte string `body` without the byte `"` (34), `Tokenizer` on `"`
`body` (an opening quote never closed) returns exactly one token, the ILLEGAL token
"Unclosed string literal"; no String token is emitted. -/
theorem Tokenizer_unterminated_string (body : List Nat) (hb : 34 ∉ body) :
    Tokenizer ([34] ++ body) = .returned [⟨.ILLEGAL, bytesOf "Unclosed string literal"⟩] := by
  have hh : Halted ([34] ++ body) initialState
      (.returned (initialState.tokens ++ [⟨.ILLEGAL, msgUnclosedString⟩])) :=
    .openString body (by simp [initialState]) hb (by decide)
  exact Tokenizer_eq_of_scanLoop (scanLoop_done hh 0) (by simp)

/-- C11 at the input `"abc`. -/
theorem Tokenizer_unterminated_string_witness :
    Tokenizer ([34] ++ [97, 98, 99]) =
      .returned [⟨.ILLEGAL, bytesOf "Unclosed string literal"⟩] :=
  Tokenizer_unterminated_string [97, 98, 99] (by decide)

/-- C13: for every byte string `rest`, `Tokenizer` on `{,` followed by `rest` returns
exactly LeftBrace `{` and the ILLEGAL token "invalid token sequence", whatever `rest`
is. -/
theorem Tokenizer_comma_after_brace (rest : List Nat) :
    Tokenizer ([123, 44] ++ rest) =
      .returned [⟨.LeftBrace, [123]⟩, ⟨.ILLEGAL, bytesOf "invalid token sequence"⟩] := by
  have m1 : Moved ([123, 44] ++ rest) initialState
      ⟨1, [⟨.LeftBrace, [123]⟩], ⟨[.LeftBrace]⟩, .LeftBrace⟩ :=
    .punct 123 .LeftBrace _ (44 :: rest) (by simp [initialState]) (.leftBrace _) (by decide)
  have h2 := @Halted.invalid ([123, 44] ++ rest)
    ⟨1, [⟨.LeftBrace, [123]⟩], ⟨[.LeftBrace]⟩, .LeftBrace⟩ 44 rest .Comma (by simp)
    (by decide) (by simp [determineTokenType]) rfl
  have hrun := (scanLoop_next m1 1).trans (scanLoop_done h2 0)
  exact Tokenizer_eq_of_scanLoop hrun (by simp)

/-! ## C14, C16 and C17: the boolean literals and the row of `{` -/

/-- C14 (evaluation at the failing inputs): on `tru,` and on `fals]` the final token
is the ILLEGAL token "invalid token sequence", not "Invalid boolean literal": the
classifier returns ILLEGAL for the byte, and the validator of lines 53-60 rejects
that type before the `switch` with lines 134-137 is reached. -/
theorem Tokenizer_bad_boolean :
    Tokenizer (bytesOf "tru,") = .returned [⟨.ILLEGAL, bytesOf "invalid token sequence"⟩] ∧
      Tokenizer (bytesOf "fals]") =
        .returned [⟨.ILLEGAL, bytesOf "invalid token sequence"⟩] ∧
      determineTokenType 116 (bytesOf "tru,") 0 = some .ILLEGAL ∧
      isValidSequences .ILLEGAL .ILLEGAL = false := by
  decide

/-- C16 (evaluation at the failing inputs): the byte `f` of `false,` at position 0
classifies as ILLEGAL, not as Boolean, because `isBoolean` returns false there; and
on the buffer `true` (the literal followed by the end of the buffer) the classifier
panics instead of returning Boolean. -/
theorem determineTokenType_false_literal :
    determineTokenType 102 (bytesOf "false,") 0 = some .ILLEGAL ∧
      isBoolean (bytesOf "false,") 0 = some false ∧
      determineTokenType 116 (bytesOf "true") 0 = none := by
  decide

/-- C17 (evaluation at the failing input): with previous state LeftBrace the validator
accepts the candidate RightBracket, which the table of the specification does not
allow, and `Tokenizer` on `{]` returns LeftBrace `{`, RightBracket `]` and the
ILLEGAL token "Unclosed token". -/
theorem isValidSequences_brace_bracket :
    isValidSequences .LeftBrace .RightBracket = true ∧
      specAllows .LeftBrace .RightBracket = false ∧
      isValidSequences .LeftBracket .RightBrace = false ∧
      Tokenizer (bytesOf "\x7b]") =
        .returned [⟨.LeftBrace, [123]⟩, ⟨.RightBracket, [93]⟩,
          ⟨.ILLEGAL, bytesOf "Unclosed token"⟩] := by
  decide

/-! ## C18: the transition table -/

theorem determineTokenType_canReturn {c : Nat} {input : List Nat} {i : Nat} {ty : TokenType}
    (h : determineTokenType c input i = some ty) : classifierCanReturn ty = true := by
  rcases determineTokenType_cases h with ⟨_, rfl⟩ | ⟨_, rfl⟩ | ⟨_, rfl⟩ | ⟨_, rfl⟩ |
    ⟨_, rfl⟩ | ⟨_, rfl⟩ | ⟨_, rfl⟩ | ⟨_, rfl⟩ | ⟨rfl, _⟩ | ⟨rfl, _⟩ | rfl <;> rfl

/-- C18: for every previous state other than LeftBrace and every candidate type the
classifier can return, `isValidSequences` returns true exactly when the transition
table of the specification allows the candidate after that state. -/
theorem isValidSequences_eq_specAllows (prev cand : TokenType) (hprev : prev ≠ .LeftBrace)
    (hcand : classifierCanReturn cand = true) :
    isValidSequences prev cand = specAllows prev cand := by
  cases prev <;> cases cand <;>
    first
    | rfl
    | exact absurd rfl hprev
    | exact absurd hcand (by decide)

/-- C18 at the previous state RightBracket and the candidates Comma (allowed) and
RightBracket (not allowed). -/
theorem isValidSequences_eq_specAllows_witness :
    (isValidSequences .RightBracket .Comma = specAllows .RightBracket .Comma ∧
        specAllows .RightBracket .Comma = true) ∧
      (isValidSequences .RightBracket .RightBracket = specAllows .RightBracket .RightBracket ∧
        specAllows .RightBracket .RightBracket = false) :=
  ⟨⟨isValidSequences_eq_specAllows .RightBracket .Comma (by decide) (by decide), by decide⟩,
    ⟨isValidSequences_eq_specAllows .RightBracket .RightBracket (by decide) (by decide),
      by decide⟩⟩

/-! ## C19: a closer on a non-empty stack -/

/-- C19 as stated fails: on `[1}` the closer `}` meets the open `[`, the stack is not
popped, and `Tokenizer` returns LeftBracket `[`, Number `1`, RightBrace `}` and the
ILLEGAL token "Unclosed token", not a list ending in EOF. -/
theorem Tokenizer_mismatched_closer :
    Tokenizer (bytesOf "[1\x7d") =
        .returned [⟨.LeftBracket, [91]⟩, ⟨.Number, [49]⟩, ⟨.RightBrace, [125]⟩,
          ⟨.ILLEGAL, bytesOf "Unclosed token"⟩] ∧
      Tokenizer (bytesOf "[1\x7d") ≠
        .returned [⟨.LeftBracket, [91]⟩, ⟨.Number, [49]⟩, ⟨.RightBrace, [125]⟩,
          ⟨.EOF, []⟩] := by
  decide

/-- C19 (amended): on every closing token that passes the validator with a non-empty
nesting stack, the iteration emits the closer and pops the stack exactly when the top
of the stack is the opener of the same kind; on a mismatched closer the stack is left
unchanged, so the open structure stays open. Here `c` is the byte at the cursor,
`}` (125) with opener LeftBrace or `]` (93) with opener LeftBracket, and the stack
is `below` with `top` on it. -/
theorem step_closer (input : List Nat) (s : State) (c : Nat) (tail : List Nat)
    (below : List TokenType) (top closer opener : TokenType)
    (hin : input.drop s.curr = c :: tail) (hst : s.stack = ⟨below ++ [top]⟩)
    (hc : (c = 125 ∧ closer = .RightBrace ∧ opener = .LeftBrace) ∨
      (c = 93 ∧ closer = .RightBracket ∧ opener = .LeftBracket))
    (hv : isValidSequences s.prevTokenType closer = true) :
    step input s =
      .next ⟨s.curr + 1, s.tokens ++ [⟨closer, [c]⟩],
        if top = opener then ⟨below⟩ else ⟨below ++ [top]⟩, closer⟩ := by
  by_cases htop : top = opener
  · rw [if_pos htop]
    rcases hc with ⟨rfl, rfl, rfl⟩ | ⟨rfl, rfl, rfl⟩
    · exact step_punct hin (hst ▸ htop ▸ Punct.rightBracePop below) hv
    · exact step_punct hin (hst ▸ htop ▸ Punct.rightBracketPop below) hv
  · rw [if_neg htop]
    rcases hc with ⟨rfl, rfl, rfl⟩ | ⟨rfl, rfl, rfl⟩
    · exact step_punct hin (hst ▸ Punct.rightBraceKeep below top htop) hv
    · exact step_punct hin (hst ▸ Punct.rightBracketKeep below top htop) hv

/-- C19 (amended) at the third iteration on `[1}` (the stack holds `[`, the closer is
`}`: nothing is popped) and on `[1]` (the closer is `]`: the `[` is popped). -/
theorem step_closer_witness :
    step (bytesOf "[1\x7d") ⟨2, [⟨.LeftBracket, [91]⟩, ⟨.Number, [49]⟩], ⟨[.LeftBracket]⟩,
        .Number⟩ =
      .next ⟨3, [⟨.LeftBracket, [91]⟩, ⟨.Number, [49]⟩, ⟨.RightBrace, [125]⟩],
        ⟨[.LeftBracket]⟩, .RightBrace⟩ ∧
    step (bytesOf "[1]") ⟨2, [⟨.LeftBracket, [91]⟩, ⟨.Number, [49]⟩], ⟨[.LeftBracket]⟩,
        .Number⟩ =
      .next ⟨3, [⟨.LeftBracket, [91]⟩, ⟨.Number, [49]⟩, ⟨.RightBracket, [93]⟩],
        ⟨[]⟩, .RightBracket⟩ :=
  ⟨step_closer (bytesOf "[1\x7d")
      ⟨2, [⟨.LeftBracket, [91]⟩, ⟨.Number, [49]⟩], ⟨[.LeftBracket]⟩, .Number⟩ 125 []
      [] .LeftBracket .RightBrace .LeftBrace (by decide) rfl (Or.inl ⟨rfl, rfl, rfl⟩)
      (by decide),
    step_closer (bytesOf "[1]")
      ⟨2, [⟨.LeftBracket, [91]⟩, ⟨.Number, [49]⟩], ⟨[.LeftBracket]⟩, .Number⟩ 93 []
      [] .LeftBracket .RightBracket .LeftBracket (by decide) rfl (Or.inr ⟨rfl, rfl, rfl⟩)
      (by decide)⟩

/-! ## C20: termination of the scan loop -/

theorem stateAfter_le_curr (input : List Nat) :
    ∀ (n : Nat) (s : State), stateAfter input n = some s → n ≤ s.curr := by
  intro n
  induction n with
  | zero => intro s _; exact Nat.zero_le _
  | succ n ih =>
    intro s h
    obtain ⟨s1, h1, hm⟩ := stateAfter_succ h
    have := ih s1 h1
    have := hm.curr_lt.1
    omega

/-- C20: for every input the scan loop of `Tokenizer` terminates. Every iteration
that goes round again strictly increases the cursor and leaves it at most
`len(input)`; so after `n` iterations the cursor is at least `n` and at most
`len(input)`, no state is reached after more than `len(input)` iterations, and the
call ends (by returning or by a panic) within the `len(input) + 1` rounds of the
loop test that the model allows. -/
theorem Tokenizer_terminates (input : List Nat) :
    (∀ s s2, step input s = .next s2 → s.curr < s2.curr ∧ s2.curr ≤ input.length) ∧
      (∀ n s, stateAfter input n = some s → n ≤ s.curr ∧ s.curr ≤ input.length) ∧
      (∀ n, input.length < n → stateAfter input n = none) ∧
      Tokenizer input ≠ .outOfFuel := by
  refine ⟨fun s s2 h => (step_eq_next_iff.mp h).curr_lt,
    fun n s h => ⟨stateAfter_le_curr input n s h, stateAfter_curr_le input n s h⟩, ?_,
    Tokenizer_ne_outOfFuel input⟩
  intro n hn
  cases h : stateAfter input n with
  | none => rfl
  | some s =>
    have h1 := stateAfter_le_curr input n s h
    have h2 := stateAfter_curr_le input n s h
    omega

/-! ## C15: the value of a token fits its type -/

theorem Punct.token_fits {c : Nat} {ty : TokenType} {st st2 : Stack} (h : Punct c ty st st2) :
    Token.fits ⟨ty, [c]⟩ := by
  cases h <;> simp [Token.fits]

/-- The token that an iteration appends fits its type. -/
theorem Moved.tokens_fit {input : List Nat} {s s2 : State} (h : Moved input s s2) :
    s2.tokens = s.tokens ∨ ∃ t, s2.tokens = s.tokens ++ [t] ∧ t.fits := by
  cases h with
  | space c tail hin hc => exact Or.inl rfl
  | punct c ty st tail hin hp hv =>
    exact Or.inr ⟨_, rfl, hp.token_fits⟩
  | string body tail hin hb hv => exact Or.inr ⟨_, rfl, by simpa [Token.fits] using hb⟩
  | number ds tail hin hne hd ht hv =>
    refine Or.inr ⟨_, rfl, ?_⟩
    refine ⟨hne, fun d hmem => ?_⟩
    simpa [isDigit] using hd d hmem
  | boolean c tail hin hc hv =>
    exact Or.inr ⟨_, rfl, Or.inl bytesOf_true.symm⟩
  | null c tail hin hc hv =>
    exact Or.inr ⟨_, rfl, bytesOf_null.symm⟩

/-- C15: whenever `Tokenizer` returns, every token of the result has a `Val` that fits
its type: a structural token the one byte of its punctuation, a Number token a
non-empty string of ASCII digits, a Boolean token `true` or `false`, a Null token
`null`, a String token no `"` byte, an EOF token the empty string; and no token of
type Quote is in the result. -/
theorem Tokenizer_tokens_fit (input : List Nat) (ts : List Token)
    (h : Tokenizer input = .returned ts) : ∀ t ∈ ts, t.fits := by
  have key := Tokenizer_invariant input
    (fun s => ∀ t ∈ s.tokens, t.fits)
    (fun o => ∀ ts, o = .returned ts → ∀ t ∈ ts, t.fits)
    (by simp [initialState])
    (by
      intro s s2 hinv hm t ht
      rcases hm.tokens_fit with h2 | ⟨t2, h2, h3⟩
      · rw [h2] at ht
        exact hinv t ht
      · rw [h2] at ht
        rcases List.mem_append.mp ht with h4 | h4
        · exact hinv t h4
        · rw [List.mem_singleton.mp h4]
          exact h3)
    (by
      intro s o hinv hh ts2 ho t ht
      obtain ⟨t2, rfl, h2⟩ := hh.returned_eq ho
      rcases List.mem_append.mp ht with h4 | h4
      · exact hinv t h4
      · rw [List.mem_singleton.mp h4]
        rcases h2 with h5 | ⟨rfl, _, _⟩
        · obtain ⟨ty, val⟩ := t2
          simp only at h5
          subst h5
          trivial
        · rfl)
  exact key ts h

/-- C15 at the input `["a",1,true,null]`. -/
theorem Tokenizer_tokens_fit_witness :
    Tokenizer (bytesOf "[\"a\",1,true,null]") =
        .returned [⟨.LeftBracket, [91]⟩, ⟨.String, [97]⟩, ⟨.Comma, [44]⟩, ⟨.Number, [49]⟩,
          ⟨.Comma, [44]⟩, ⟨.Boolean, bytesOf "true"⟩, ⟨.Comma, [44]⟩,
          ⟨.Null, bytesOf "null"⟩, ⟨.RightBracket, [93]⟩, ⟨.EOF, []⟩] ∧
      ∀ t ∈ [(⟨.LeftBracket, [91]⟩ : Token), ⟨.String, [97]⟩, ⟨.Comma, [44]⟩,
          ⟨.Number, [49]⟩, ⟨.Comma, [44]⟩, ⟨.Boolean, bytesOf "true"⟩, ⟨.Comma, [44]⟩,
          ⟨.Null, bytesOf "null"⟩, ⟨.RightBracket, [93]⟩, ⟨.EOF, []⟩], t.fits :=
  ⟨by decide, Tokenizer_tokens_fit (bytesOf "[\"a\",1,true,null]") _ (by decide)⟩

/-! ## C12: unclosed structures -/

theorem bracketDepthOutside_plain {l : List Nat}
    (h : ∀ x ∈ l, x ≠ 34 ∧ bracketDelta x = 0) (tail : List Nat) :
    bracketDepthOutside false (l ++ tail) = bracketDepthOutside false tail := by
  induction l with
  | nil => rfl
  | cons x l ih =>
    have hx := h x (by simp)
    have ih2 := ih (fun y hy => h y (by simp [hy]))
    simp [bracketDepthOutside, hx.1, hx.2, ih2]

theorem bracketDepthOutside_body {body : List Nat} (h : 34 ∉ body) (tail : List Nat) :
    bracketDepthOutside true (body ++ 34 :: tail) = bracketDepthOutside false tail := by
  induction body with
  | nil => simp [bracketDepthOutside]
  | cons x l ih =>
    have hx : x ≠ 34 := fun e => h (by simp [e])
    have ih2 := ih (fun e => h (by simp [e]))
    simp [bracketDepthOutside, hx, ih2]

theorem Punct.stack_depth {c : Nat} {ty : TokenType} {st st2 : Stack} (h : Punct c ty st st2) :
    c ≠ 34 ∧ (st.TokenTypes.length : Int) + bracketDelta c ≤ st2.TokenTypes.length := by
  cases h <;> simp [bracketDelta, Stack.Push]

theorem space_delta {c : Nat} (h : unicodeIsSpace c = true) :
    c ≠ 34 ∧ bracketDelta c = 0 := by
  rw [unicodeIsSpace_iff] at h
  rcases h with rfl | rfl | rfl | rfl | rfl | rfl | rfl | rfl <;> decide

theorem digit_delta {d : Nat} (h : isDigit d = true) : d ≠ 34 ∧ bracketDelta d = 0 := by
  simp [isDigit] at h
  refine ⟨by omega, ?_⟩
  unfold bracketDelta
  rw [if_neg (by omega), if_neg (by omega)]

/-- The size of the nesting stack, plus the depth of the bracket bytes still to be
read outside string literals, never goes down. -/
theorem Moved.depth_le {input : List Nat} {s s2 : State} (h : Moved input s s2) :
    (s.stack.TokenTypes.length : Int) + bracketDepthOutside false (input.drop s.curr) ≤
      (s2.stack.TokenTypes.length : Int) + bracketDepthOutside false (input.drop s2.curr) := by
  cases h with
  | space c tail hin hc =>
    have hd : input.drop (s.curr + 1) = tail := drop_add_of_drop_eq (a := [c]) hin
    obtain ⟨h1, h2⟩ := space_delta hc
    simp [hd, hin, bracketDepthOutside, h1, h2]
  | punct c ty st tail hin hp hv =>
    have hd : input.drop (s.curr + 1) = tail := drop_add_of_drop_eq (a := [c]) hin
    obtain ⟨h1, h2⟩ := hp.stack_depth
    simp only [hd, hin, bracketDepthOutside, h1, if_false]
    omega
  | string body tail hin hb hv =>
    have hd : input.drop (s.curr + 1 + body.length + 1) = tail := by
      have := drop_add_of_drop_eq (a := 34 :: (body ++ [34])) (t := tail) (i := s.curr)
        (by simpa using hin)
      rw [← this]
      congr 1
      simp
      omega
    simp [hd, hin, bracketDepthOutside, bracketDepthOutside_body hb]
  | number ds tail hin hne hd ht hv =>
    have hdr : input.drop (s.curr + ds.length) = tail := drop_add_of_drop_eq hin
    simp [hdr, hin, bracketDepthOutside_plain (fun x hx => digit_delta (hd x hx))]
  | boolean c tail hin hc hv =>
    have hdr : input.drop (s.curr + 4) = c :: tail :=
      drop_add_of_drop_eq (a := trueLiteral) hin
    have hp : ∀ x ∈ trueLiteral, x ≠ 34 ∧ bracketDelta x = 0 := by decide
    simp [hdr, hin, bracketDepthOutside_plain hp]
  | null c tail hin hc hv =>
    have hdr : input.drop (s.curr + 4) = c :: tail :=
      drop_add_of_drop_eq (a := nullLiteral) hin
    have hp : ∀ x ∈ nullLiteral, x ≠ 34 ∧ bracketDelta x = 0 := by decide
    simp [hdr, hin, bracketDepthOutside_plain hp]

/-- Invariant rule for the states of `stateAfter`. -/
theorem stateAfter_invariant (input : List Nat) (Inv : State → Prop)
    (hinit : Inv initialState) (hmove : ∀ s s2, Inv s → Moved input s s2 → Inv s2) :
    ∀ (n : Nat) (s : State), stateAfter input n = some s → Inv s := by
  intro n
  induction n with
  | zero =>
    intro s h
    cases h
    exact hinit
  | succ n ih =>
    intro s h
    obtain ⟨s1, h1, hm⟩ := stateAfter_succ h
    exact hmove s1 s (ih s1 h1) hm

/-- C12 as stated fails. On `{,` the depth of the bracket bytes is never negative and
is `1` at the end, yet the final token is the ILLEGAL token "invalid token sequence":
the first error ends the call. On `"["` the same holds of the depth, the bracket
lying inside a string literal, and the result ends in EOF. -/
theorem Tokenizer_depth_counterexample :
    ((∀ k, k ≤ (bytesOf "\x7b,").length → 0 ≤ bracketDepth ((bytesOf "\x7b,").take k)) ∧
        bracketDepth (bytesOf "\x7b,") ≠ 0 ∧
        Tokenizer (bytesOf "\x7b,") =
          .returned [⟨.LeftBrace, [123]⟩, ⟨.ILLEGAL, bytesOf "invalid token sequence"⟩]) ∧
      ((∀ k, k ≤ (bytesOf "\"[\"").length → 0 ≤ bracketDepth ((bytesOf "\"[\"").take k)) ∧
        bracketDepth (bytesOf "\"[\"") ≠ 0 ∧
        Tokenizer (bytesOf "\"[\"") = .returned [⟨.String, [91]⟩, ⟨.EOF, []⟩]) := by
  decide

/-- C12 (amended): for every input whose bracket bytes outside string literals keep
the nesting depth non-negative over each prefix and leave it non-zero at the end of
the input, `Tokenizer` never returns a list ending in EOF, and whenever the scan
loop reaches the end of the input (no invalid sequence, malformed number,
unterminated string or panic ends the call before) the result is the tokens scanned
followed by the ILLEGAL token "Unclosed token". -/
theorem Tokenizer_unclosed (input : List Nat)
    (hpre : ∀ k, k ≤ input.length → 0 ≤ bracketDepthOutside false (input.take k))
    (hend : bracketDepthOutside false input ≠ 0) :
    (∀ ts, Tokenizer input = .returned ts → endsInEOF ts = false) ∧
      ∀ n s, stateAfter input n = some s → input.length ≤ s.curr →
        Tokenizer input = .returned (s.tokens ++ [⟨.ILLEGAL, bytesOf "Unclosed token"⟩]) := by
  have hpos : 0 < bracketDepthOutside false input := by
    have h0 := hpre input.length (Nat.le_refl _)
    rw [List.take_length] at h0
    omega
  have hinit : bracketDepthOutside false input ≤
      (initialState.stack.TokenTypes.length : Int) +
        bracketDepthOutside false (input.drop initialState.curr) := by
    simp [initialState, NewStack]
  have hmove : ∀ s s2 : State,
      bracketDepthOutside false input ≤
        (s.stack.TokenTypes.length : Int) + bracketDepthOutside false (input.drop s.curr) →
      Moved input s s2 →
      bracketDepthOutside false input ≤
        (s2.stack.TokenTypes.length : Int) + bracketDepthOutside false (input.drop s2.curr) :=
    fun s s2 hinv hm => le_trans hinv hm.depth_le
  have hstack : ∀ s : State,
      bracketDepthOutside false input ≤
        (s.stack.TokenTypes.length : Int) + bracketDepthOutside false (input.drop s.curr) →
      input.length ≤ s.curr → 0 < s.stack.TokenTypes.length := by
    intro s hinv hlen
    rw [List.drop_eq_nil_iff.mpr hlen] at hinv
    simp only [bracketDepthOutside, add_zero] at hinv
    omega
  constructor
  · exact Tokenizer_invariant input
      (fun s => bracketDepthOutside false input ≤
        (s.stack.TokenTypes.length : Int) + bracketDepthOutside false (input.drop s.curr))
      (fun o => ∀ ts, o = .returned ts → endsInEOF ts = false) hinit hmove
      (by
        intro s o hinv hh ts ho
        obtain ⟨t, rfl, ht⟩ := hh.returned_eq ho
        rcases ht with h2 | ⟨_, hst, hlen⟩
        · simp [endsInEOF, h2]
        · have := hstack s hinv hlen
          rw [hst] at this
          exact absurd this (by simp))
  · intro n s hs hlen
    have hinv := stateAfter_invariant input _ hinit hmove n s hs
    have hst := hstack s hinv hlen
    have hrun : scanLoop input (n + 1) initialState = finish s := by
      rw [scanLoop_stateAfter input n s hs 1]
      exact scanLoop_done (.atEnd hlen) 0
    have hfin : finish s = .returned (s.tokens ++ [⟨.ILLEGAL, bytesOf "Unclosed token"⟩]) := by
      unfold finish
      rw [if_pos hst]
      rfl
    rw [hfin] at hrun
    exact Tokenizer_eq_of_scanLoop hrun (by simp)

/-- C12 (amended) at the input `{`, whose scan reaches the end of the input after one
iteration. -/
theorem Tokenizer_unclosed_witness :
    stateAfter (bytesOf "\x7b") 1 =
        some ⟨1, [⟨.LeftBrace, [123]⟩], ⟨[.LeftBrace]⟩, .LeftBrace⟩ ∧
      Tokenizer (bytesOf "\x7b") =
        .returned ([⟨.LeftBrace, [123]⟩] ++ [⟨.ILLEGAL, bytesOf "Unclosed token"⟩]) :=
  ⟨by decide,
    (Tokenizer_unclosed (bytesOf "\x7b") (by decide) (by decide)).2 1
      ⟨1, [⟨.LeftBrace, [123]⟩], ⟨[.LeftBrace]⟩, .LeftBrace⟩ (by decide) (by decide)⟩

end Tok
